import Mathlib

/-!
Shallow embedding of the thread/tag/post-data logic of
`askbot/models/question.py` (Askbot), together with theorems about it.

Python strings are embedded as Lean `String`; Python lists as `List`;
database rows as structures; the cache as an association list.
-/

namespace Askbot

/-- Characters treated as whitespace by Python's `str.strip()` / `str.split()`
(ASCII portion). -/
def isPySpace (c : Char) : Bool :=
  c = ' ' || c = '\t' || c = '\n' || c = '\r' || c = '\x0b' || c = '\x0c'

/-- Python `s.strip()`: remove leading and trailing whitespace. -/
def pyStrip (s : String) : String :=
  String.mk (((s.data.dropWhile isPySpace).reverse.dropWhile isPySpace).reverse)

/-- Auxiliary scanner for `pyWords`: `cur` holds the current word reversed. -/
def pyWordsAux : List Char → List Char → List String
  | [], cur => if cur.isEmpty then [] else [String.mk cur.reverse]
  | c :: cs, cur =>
    if isPySpace c then
      if cur.isEmpty then pyWordsAux cs []
      else String.mk cur.reverse :: pyWordsAux cs []
    else pyWordsAux cs (c :: cur)

/-- Python `s.split()` with no argument: split on whitespace runs, no empty
words. -/
def pyWords (s : String) : List String :=
  pyWordsAux s.data []

/-- Auxiliary scanner for `pySplitSpace`: `cur` holds the current piece
reversed. -/
def splitSpaceAux : List Char → List Char → List String
  | [], cur => [String.mk cur.reverse]
  | c :: cs, cur =>
    if c = ' ' then String.mk cur.reverse :: splitSpaceAux cs []
    else splitSpaceAux cs (c :: cur)

/-- Python `s.split(' ')`: split on every single space character, keeping
empty pieces (so `'a  b'` yields `['a', '', 'b']`). -/
def pySplitSpace (s : String) : List String :=
  splitSpaceAux s.data []

/-- The truncation loop of `clean_tagnames` (question.py lines 51-61): keep
popping the last word while the space-joined UTF-8 encoding exceeds 125
bytes. -/
def fitTagnames (ws : List String) : List String :=
  if (" ".intercalate ws).utf8ByteSize ≤ 125 then ws
  else fitTagnames ws.dropLast
termination_by ws.length
decreasing_by
  rename_i h
  have hne : ws ≠ [] := by
    intro hw
    subst hw
    exact h (by decide)
  have : 0 < ws.length := List.length_pos.mpr hne
  simp [List.length_dropLast]
  omega

/-- Embedding of `clean_tagnames` (question.py lines 45-61): split the
stripped string into words, then drop trailing words until the joined
string fits in 125 UTF-8 bytes (returning `''` when nothing is left). -/
def clean_tagnames (tagnames : String) : String :=
  " ".intercalate (fitTagnames (pyWords tagnames))

/-! ### Tag data model

The `Tag` / `TagSynonym` models live in `askbot/models/tag.py`, which is not
part of the sources at hand; their fields and the helper operations used by
`Thread.update_tags` are modelled from the spec (sections 3 and 4.1).  The
`Thread.update_tags`, `Thread.remove_tags_by_names` bodies themselves are
translated from `askbot/models/question.py`. -/

/-- Status of a tag record ("accepted/suggested/deleted", spec section 3). -/
inductive TagStatus
  | suggested
  | accepted
  | deleted
deriving DecidableEq, Repr

/-- Modelled from the spec: a `Tag` row — "id, name, language code, status
(accepted/suggested/deleted), use count" (spec section 3).  Rows are
identified by (name, language). -/
structure Tag where
  name : String
  language_code : String
  status : TagStatus
  used_count : Int
deriving DecidableEq, Repr

/-- Modelled from the spec: a `TagSynonym` row — "a mapping redirecting one
tag name to another on write", with an auto-rename usage counter
(question.py lines 1552-1558 use fields `source_tag_name`,
`target_tag_name`, `language_code`, `auto_rename_count`). -/
structure TagSynonym where
  source_tag_name : String
  target_tag_name : String
  language_code : String
  auto_rename_count : Nat
deriving DecidableEq, Repr

/-- The slice of database and thread state touched by `Thread.update_tags`:
all tag rows, all synonym rows, the names of tags attached to the thread
(the `Thread.tags` many-to-many relation), the denormalized `tagnames`
string, the thread's language, and — modelled from the spec invariant "use
count equals number of non-deleted threads referencing it" — the number of
references to each tag name from threads other than this one. -/
structure TagDB where
  tags : List Tag
  synonyms : List TagSynonym
  thread_tag_names : List String
  tagnames : String
  language_code : String
  base_use : List (String × Nat)
deriving DecidableEq, Repr

/-- References to a tag name from other threads (association-list lookup,
absent names contribute 0). -/
def baseUse (db : TagDB) (n : String) : Nat :=
  ((db.base_use.find? (fun p => p.1 == n)).map Prod.snd).getD 0

/-- Adding an element to a Python `set`, embedded as first-occurrence-order
duplicate-free list insertion. -/
def insertName (n : String) (l : List String) : List String :=
  if n ∈ l then l else l ++ [n]

/-- The tag rows reached by `self.tags.all()`: rows of the thread's language
whose name is attached to the thread. -/
def TagDB.attachedTags (db : TagDB) : List Tag :=
  db.tags.filter
    (fun t => t.language_code == db.language_code &&
      db.thread_tag_names.contains t.name)

/-- Lookup of `TagSynonym.objects.get(source_tag_name=..., language_code=...)`
(question.py lines 1553-1555); `none` models `TagSynonym.DoesNotExist`. -/
def findSynonym (db : TagDB) (n : String) : Option TagSynonym :=
  db.synonyms.find?
    (fun s => s.source_tag_name == n && s.language_code == db.language_code)

/-- Increment `auto_rename_count` of the synonym row with the given source
name (the `tag_synonym.save()` of question.py line 1558). -/
def bumpSynonym (db : TagDB) (n : String) : TagDB :=
  { db with synonyms := db.synonyms.map (fun s =>
      if s.source_tag_name == n && s.language_code == db.language_code then
        { s with auto_rename_count := s.auto_rename_count + 1 }
      else s) }

/-- One step of the synonym-application loop of question.py lines 1550-1560:
replace a name by its synonym target (bumping the counter) or keep it. -/
def applySynonymsStep (acc : List String × TagDB) (n : String) :
    List String × TagDB :=
  match findSynonym acc.2 n with
  | some syn => (insertName syn.target_tag_name acc.1, bumpSynonym acc.2 n)
  | none => (insertName n acc.1, acc.2)

/-- The synonym-application loop of question.py lines 1550-1560, producing
the `updated_tagnames` set and the state with bumped synonym counters. -/
def applySynonyms (db : TagDB) (names : List String) :
    List String × TagDB :=
  names.foldl applySynonymsStep ([], db)

/-- The per-row effect of `remove_tags_by_names` on the tag table: an
attached tag of the thread's language whose name is listed has its use
count decremented (`tag.decrement_used_count()`). -/
def removeTagRow (lang : String) (thread names : List String) (t : Tag) :
    Tag :=
  if t.language_code == lang && thread.contains t.name &&
      names.contains t.name then
    { t with used_count := t.used_count - 1 }
  else t

/-- Embedding of `Thread.remove_tags_by_names` (question.py lines
1516-1524): every attached tag whose name is listed has its use count
decremented and is detached; the (decremented) removed rows are returned. -/
def remove_tags_by_names (db : TagDB) (names : List String) :
    TagDB × List Tag :=
  let removed := (db.attachedTags.filter (fun t => names.contains t.name)).map
    (fun t => { t with used_count := t.used_count - 1 })
  ({ db with
      tags := db.tags.map
        (removeTagRow db.language_code db.thread_tag_names names),
      thread_tag_names := db.thread_tag_names.filter (fun n =>
        !(names.contains n &&
          db.tags.any (fun t =>
            t.name == n && t.language_code == db.language_code))) },
   removed)

/-- Modelled from the spec: `get_tags_by_names` (askbot/models/tag.py, not
among the sources) — "tags already existing (soft-deleted or not) are
reused ...; genuinely new names are created" (spec section 4.1): split the
requested names into existing rows for the language and genuinely new
names. -/
def get_tags_by_names (db : TagDB) (names : List String) :
    List Tag × List String :=
  (db.tags.filter
      (fun t => t.language_code == db.language_code && names.contains t.name),
   names.filter (fun n =>
      !(db.tags.any
        (fun t => t.language_code == db.language_code && t.name == n))))

/-- The per-row effect of `mark_undeleted`: a soft-deleted row of the
language whose name is listed becomes accepted. -/
def markTagRow (lang : String) (names : List String) (t : Tag) : Tag :=
  if t.language_code == lang && names.contains t.name &&
      t.status == TagStatus.deleted then
    { t with status := TagStatus.accepted }
  else t

/-- Modelled from the spec: `mark_undeleted` on the reused queryset
(askbot/models/tag.py, not among the sources) — reused tags are "undeleted"
(spec section 4.1): soft-deleted rows among the given names become
accepted. -/
def mark_undeleted (db : TagDB) (names : List String) : TagDB :=
  { db with tags := db.tags.map (markTagRow db.language_code names) }

/-- Modelled from the spec: `Tag.objects.create_in_bulk` (askbot/models/
tag.py, not among the sources) — "genuinely new names are created, placed
into 'suggested' status if tag moderation is enabled for non-privileged
authors, else 'accepted'" (spec section 4.1).  Use counts start at 0 and
are recalculated at the end of `update_tags`. -/
def newTagRow (lang : String) (moderated : Bool) (n : String) : Tag :=
  Tag.mk n lang
    (if moderated then TagStatus.suggested else TagStatus.accepted) 0

/-- Modelled from the spec: `Tag.objects.create_in_bulk` (askbot/models/
tag.py, not among the sources): rows for genuinely new names, placed into
suggested status under tag moderation, else accepted (spec section 4.1). -/
def create_in_bulk (db : TagDB) (names : List String) (moderated : Bool) :
    TagDB × List Tag :=
  let created := names.map (newTagRow db.language_code moderated)
  ({ db with tags := db.tags ++ created }, created)

/-- Modelled from the spec: `Tag.objects.update_use_counts` (askbot/models/
tag.py, not among the sources) — tags are "use-count-recalculated in bulk
at the end", where the invariant is "use count equals number of non-deleted
threads referencing it" (spec sections 3 and 4.1): for each listed name the
count becomes the other-thread references plus one when attached here. -/
def recalcTagRow (db : TagDB) (names : List String) (t : Tag) : Tag :=
  if t.language_code == db.language_code && names.contains t.name then
    { t with used_count := (baseUse db t.name : Int) +
        (if db.thread_tag_names.contains t.name then 1 else 0) }
  else t

/-- Bulk recalculation `Tag.objects.update_use_counts(modified_tags)` of
question.py line 1627, applying `recalcTagRow` to every row. -/
def update_use_counts (db : TagDB) (names : List String) : TagDB :=
  { db with tags := db.tags.map (recalcTagRow db names) }

/-- The `self.tags.add(*added_tags)` call of question.py line 1591:
attaching already-attached tags is a no-op of the many-to-many relation. -/
def attachTags (db : TagDB) (names : List String) : TagDB :=
  { db with thread_tag_names :=
      names.foldl (fun acc n => insertName n acc) db.thread_tag_names }

/-- Modelled from the spec: `filter_accepted_tags` (askbot/models/tag.py,
not among the sources) — restrict "to tags that ended up accepted" (spec
section 4.1). -/
def filter_accepted_tags (ts : List Tag) : List Tag :=
  ts.filter (fun t => t.status == TagStatus.accepted)

/-- Result of `Thread.update_tags`: the new state, the detached rows, the
rows passed to `self.tags.add`, and the returned boolean (whether a
`tags_updated` signal was sent). -/
structure UpdateTagsResult where
  db : TagDB
  removed_tags : List Tag
  added_tags : List Tag
  changed : Bool
deriving DecidableEq, Repr

/-- Names of the thread's previously attached accepted tags
(`previous_tags` / `previous_tagnames`, question.py lines 1544 and 1562). -/
def previousTagnames (db : TagDB) : List String :=
  (db.attachedTags.filter (fun t => t.status == TagStatus.accepted)).map
    Tag.name

/-- The Python `set(...)` constructor on a list of names, embedded as
first-occurrence-order deduplication. -/
def dedupNames (l : List String) : List String :=
  l.foldl (fun acc n => insertName n acc) []

/-- The synonym-normalized target name set `updated_tagnames` of
question.py lines 1546-1560, as computed from the ordered split names. -/
def updatedTagnames (db : TagDB) (ordered : List String) : List String :=
  (applySynonyms db (dedupNames ordered)).1

/-- The added-tag resolution block of question.py lines 1577-1594: reuse
and undelete existing rows among the added names, create rows for
genuinely new names, and attach all of them to the thread.  Returns the
new state and the `added_tags` list. -/
def resolveAdded (db : TagDB) (added_tagnames : List String)
    (moderated : Bool) : TagDB × List Tag :=
  if added_tagnames.isEmpty then (db, [])
  else
    let gt := get_tags_by_names db added_tagnames
    let db3 := mark_undeleted db (gt.1.map Tag.name)
    let reused_after := db3.tags.filter (fun t =>
      t.language_code == db3.language_code && added_tagnames.contains t.name)
    let cr := create_in_bulk db3 gt.2 moderated
    let added_tags := reused_after ++ cr.2
    (attachTags cr.1 (added_tags.map Tag.name), added_tags)

/-- The body of `Thread.update_tags` after the empty-string early return
(question.py lines 1544-1632), taking the already-split ordered name list:
synonym-normalize the target names; detach `previous - updated`; resolve
and attach `updated - previous`; recompute the denormalized `tagnames`
string preserving the caller's order restricted to accepted names;
recalculate use counts of all modified tags. -/
def update_tags_core (db : TagDB) (ordered : List String)
    (moderated : Bool) : UpdateTagsResult :=
  let prevNames := previousTagnames db
  let applied := applySynonyms db (dedupNames ordered)
  let U := applied.1
  let removedNames := prevNames.filter (fun n => !U.contains n)
  let rem := remove_tags_by_names applied.2 removedNames
  let addedNames := U.filter (fun n => !prevNames.contains n)
  let resolved := resolveAdded rem.1 addedNames moderated
  let added_tags := resolved.2
  let finalNames :=
    prevNames.filter (fun n => !removedNames.contains n) ++
      (filter_accepted_tags added_tags).map Tag.name
  let orderedFinal := ordered.filter (fun n => finalNames.contains n)
  let db6 := { resolved.1 with tagnames := " ".intercalate orderedFinal }
  let modified := rem.2 ++ added_tags
  if modified.isEmpty then ⟨db6, rem.2, added_tags, false⟩
  else ⟨update_use_counts db6 (modified.map Tag.name),
        rem.2, added_tags, true⟩

/-- Embedding of `Thread.update_tags` (question.py lines 1526-1632): an
empty or whitespace-only tag-name string returns immediately, otherwise
the stripped string is split on single spaces and processed. -/
def update_tags (db : TagDB) (tagnames : String) (moderated : Bool) :
    UpdateTagsResult :=
  if pyStrip tagnames = "" then ⟨db, [], [], false⟩
  else update_tags_core db (pySplitSpace (pyStrip tagnames)) moderated

/-- The synonym mapping of a state: source, target and language of each
synonym row (everything except the auto-rename counters, which
`update_tags` increments). -/
def synProj (db : TagDB) : List (String × String × String) :=
  db.synonyms.map (fun s =>
    (s.source_tag_name, s.target_tag_name, s.language_code))

/-- The `removed_tagnames` of question.py line 1563: previously accepted
names not among the synonym-normalized targets. -/
def removedNamesOf (db : TagDB) (ordered : List String) : List String :=
  (previousTagnames db).filter
    (fun n => !(updatedTagnames db ordered).contains n)

/-- The `added_tagnames` of question.py line 1575: synonym-normalized
targets that were not previously accepted. -/
def addedNamesOf (db : TagDB) (ordered : List String) : List String :=
  (updatedTagnames db ordered).filter
    (fun n => !(previousTagnames db).contains n)

/-- The state after the synonym-application phase of `update_tags_core`. -/
def updateTagsDbA (db : TagDB) (ordered : List String) : TagDB :=
  (applySynonyms db (dedupNames ordered)).2

/-- The state after the tag-removal phase of `update_tags_core`. -/
def updateTagsDbR (db : TagDB) (ordered : List String) : TagDB :=
  (remove_tags_by_names (updateTagsDbA db ordered)
    (removedNamesOf db ordered)).1

/-! ### Post data model and `Thread.get_post_data`

Translated from `askbot/models/question.py` lines 1206-1326.  The database
`ORDER BY` is embedded as a deterministic stable insertion sort; comments
are attached to their parents via an explicit parent-id-keyed map (Python
mutates the post objects instead, which does not change list membership). -/

/-- Type of a post row (`post_type` column); `other` covers the remaining
types skipped at question.py line 1253. -/
inductive PostType
  | question
  | answer
  | comment
  | other
deriving DecidableEq, Repr

/-- The fields of a `Post` row used by `Thread.get_post_data`. -/
structure Post where
  id : Nat
  post_type : PostType
  deleted : Bool
  approved : Bool
  author_id : Nat
  parent_id : Nat
  added_at : Nat
  points : Int
  group_ids : List Nat
deriving DecidableEq, Repr

/-- The slice of a `Thread` row used by the post aggregator: its id, its
posts, and the accepted-answer foreign key. -/
structure ThreadPosts where
  id : Nat
  posts : List Post
  accepted_answer_id : Option Nat
deriving DecidableEq, Repr

/-- Answer sort methods (`latest|oldest|votes`, question.py lines
1227-1231). -/
inductive SortMethod
  | latest
  | oldest
  | votes
deriving DecidableEq, Repr

/-- Global configuration read by the aggregator
(`askbot_settings.SHOW_ACCEPTED_ANSWER_FIRST` and
`askbot_settings.DEFAULT_ANSWER_SORT_METHOD`). -/
structure AggregatorSettings where
  show_accepted_answer_first : Bool
  default_answer_sort_method : SortMethod
deriving DecidableEq, Repr

/-- Sort key of one `order_by` column: `-added_at` for `latest`, `added_at`
for `oldest`, `-points` for `votes` (question.py lines 1227-1231),
ascending. -/
def orderKey (sm : SortMethod) (p : Post) : Int :=
  match sm with
  | SortMethod.latest => -(p.added_at : Int)
  | SortMethod.oldest => (p.added_at : Int)
  | SortMethod.votes => -p.points

/-- The comparison realizing `order_by`: the requested method, with the
deployment default as a secondary tiebreak when the two differ
(question.py lines 1233-1241). -/
def postLe (sm dflt : SortMethod) (a b : Post) : Bool :=
  if sm == dflt then orderKey sm a ≤ orderKey sm b
  else
    orderKey sm a < orderKey sm b ||
      (orderKey sm a == orderKey sm b && orderKey dflt a ≤ orderKey dflt b)

/-- Ordered insertion used to embed the database sort. -/
def insOrd (le : α → α → Bool) (x : α) : List α → List α
  | [] => [x]
  | y :: ys => if le x y then x :: y :: ys else y :: insOrd le x ys

/-- Deterministic stable sort embedding the database `ORDER BY`. -/
def sortListBy (le : α → α → Bool) (l : List α) : List α :=
  l.foldr (insOrd le) []

/-- Uncaught fatal errors that `Thread.get_post_data` can raise: the
`assert(question_post is None)` of line 1281, a `ValueError` from
`answers.remove` (line 1302), and a missing accepted-answer row when the
foreign key is dereferenced (line 1297). -/
inductive PostDataError
  | assertionFailed
  | valueMissing
  | fkMissing
deriving DecidableEq, Repr

/-- The value returned by `Thread.get_post_data`: the question post, the
ordered answers, the post-id-to-author map, the published answer ids, and
the comments attached to the question/answer posts (keyed by parent id;
Python stores these on the post objects via `set_cached_comments`). -/
structure PostData where
  question_post : Option Post
  answers : List Post
  post_to_author : List (Nat × Nat)
  published_answer_ids : List Nat
  comments : List (Nat × List Post)
deriving DecidableEq, Repr

/-- One comment insertion into `comment_map` (question.py lines
1275-1278). -/
def addComment (cmap : List (Nat × List Post)) (p : Post) :
    List (Nat × List Post) :=
  if cmap.any (fun e => e.1 == p.parent_id) then
    cmap.map (fun e => if e.1 == p.parent_id then (e.1, e.2 ++ [p]) else e)
  else cmap ++ [(p.parent_id, [p])]

/-- The collection loop of question.py lines 1251-1283: classify each post,
skipping unknown types, deleted non-question posts and unapproved posts;
answers and comments are accumulated in order; a second question post
trips the `assert(question_post is None)`. -/
def collectPosts : List Post → Option Post → List Post → List (Nat × Nat) →
    List (Nat × List Post) →
    Except PostDataError
      (Option Post × List Post × List (Nat × Nat) × List (Nat × List Post))
  | [], q, ans, p2a, cmap => Except.ok (q, ans, p2a, cmap)
  | p :: ps, q, ans, p2a, cmap =>
    if p.post_type == PostType.other then collectPosts ps q ans p2a cmap
    else if p.deleted && !(p.post_type == PostType.question) then
      collectPosts ps q ans p2a cmap
    else if !p.approved then collectPosts ps q ans p2a cmap
    else
      match p.post_type with
      | PostType.answer =>
        collectPosts ps q (ans ++ [p]) (p2a ++ [(p.id, p.author_id)]) cmap
      | PostType.comment =>
        collectPosts ps q ans (p2a ++ [(p.id, p.author_id)]) (addComment cmap p)
      | PostType.question =>
        if q.isSome then Except.error PostDataError.assertionFailed
        else collectPosts ps (some p) ans (p2a ++ [(p.id, p.author_id)]) cmap
      | PostType.other => collectPosts ps q ans p2a cmap

/-- The accepted-answer promotion pass (question.py lines 1296-1303): when
the setting is on and the thread's accepted answer exists and is not
deleted and its id is in `post_map`, it is removed from the answers and
reinserted at position 0.  A missing foreign-key row or a `post_map` hit
that is not in the answers list raises. -/
def promoteAccepted (th : ThreadPosts) (show_first : Bool)
    (postMapIds : List Nat) (answers : List Post) :
    Except PostDataError (List Post) :=
  if show_first then
    match th.accepted_answer_id with
    | none => Except.ok answers
    | some aid =>
      match th.posts.find? (fun p => p.id == aid) with
      | none => Except.error PostDataError.fkMissing
      | some ap =>
        if !ap.deleted then
          if postMapIds.contains aid then
            match answers.find? (fun a => a.id == aid) with
            | some a =>
              Except.ok (a :: answers.eraseP (fun b => b.id == aid))
            | none => Except.error PostDataError.valueMissing
          else Except.ok answers
        else Except.ok answers
  else Except.ok answers

/-- One step of the published-answers-first pass (question.py lines
1317-1324): the answer with the given id, when present, is removed and
reinserted at position 0. -/
def moveToFront (aid : Nat) (l : List Post) : List Post :=
  match l.find? (fun p => p.id == aid) with
  | some p => p :: l.eraseP (fun b => b.id == aid)
  | none => l

/-- The post queryset of question.py lines 1219-1225: approved posts,
additionally filtered by group membership when a group set is supplied
(the `.distinct()` de-duplication of the SQL join is implicit here, since
each post row occurs once). -/
def visiblePosts (th : ThreadPosts) (groups : List Nat) : List Post :=
  if groups.isEmpty then th.posts.filter (fun p => p.approved)
  else th.posts.filter (fun p =>
    p.approved && p.group_ids.any (fun g => groups.contains g))

/-- A non-deleted approved answer post: exactly the posts accumulated into
the `answers` list by the collection loop. -/
def isLiveAnswer (p : Post) : Bool :=
  p.post_type == PostType.answer && !p.deleted && p.approved

/-- Embedding of `Thread.get_post_data` (question.py lines 1206-1326). -/
def get_post_data (th : ThreadPosts) (stg : AggregatorSettings)
    (sort_method : Option SortMethod) (groups : List Nat) :
    Except PostDataError PostData :=
  let sm := sort_method.getD stg.default_answer_sort_method
  let posts0 := visiblePosts th groups
  let le := postLe sm stg.default_answer_sort_method
  let posts1 := sortListBy le posts0
  match collectPosts posts1 none [] [] [] with
  | Except.error e => Except.error e
  | Except.ok (q, answers0, p2a, cmap) =>
    let cmapSorted := cmap.map (fun e =>
      (e.1, sortListBy (fun a b : Post => a.added_at ≤ b.added_at) e.2))
    let postMapIds := (answers0.map Post.id) ++
      (match q with | some qp => [qp.id] | none => [])
    let cmapAttached := cmapSorted.filter (fun e => postMapIds.contains e.1)
    match promoteAccepted th stg.show_accepted_answer_first postMapIds
        answers0 with
    | Except.error e => Except.error e
    | Except.ok answers1 =>
      let published_answer_ids :=
        ((sortListBy le (th.posts.filter (fun p =>
            p.post_type == PostType.answer && !p.deleted))).map Post.id).reverse
      let answers2 :=
        published_answer_ids.foldl (fun acc aid => moveToFront aid acc)
          answers1
      Except.ok ⟨q, answers2, p2a, published_answer_ids, cmapAttached⟩

/-! ### Cache layer -/

/-- Printable name of a sort method (the strings of
`const.ANSWER_SORT_METHODS`). -/
def sortMethodName : SortMethod → String
  | SortMethod.latest => "latest"
  | SortMethod.oldest => "oldest"
  | SortMethod.votes => "votes"

/-- Modelled from the spec: `const.ANSWER_SORT_METHODS` (askbot/const, not
among the sources) — the known answer sort methods `latest|oldest|votes`
(spec section 4.2). -/
def ANSWER_SORT_METHODS : List SortMethod :=
  [SortMethod.latest, SortMethod.oldest, SortMethod.votes]

/-- Embedding of `Thread.get_post_data_cache_key` (question.py lines
1036-1040) for the group-free case; every caller among the sources passes
an empty or absent group set, so only the `f'thread-data-{id}-{sort}'`
branch is ever taken. -/
def get_post_data_cache_key (id : Nat) (sm : SortMethod) : String :=
  "thread-data-" ++ toString id ++ "-" ++ sortMethodName sm

/-- Embedding of `Thread.get_summary_cache_key` (question.py lines
1032-1034). -/
def get_summary_cache_key (id : Nat) (lang : String) : String :=
  "thread-question-summary-" ++ toString id ++ "-" ++ lang

/-- The external cache collaborator, embedded as an association list from
keys to cached post data. -/
abbrev Cache := List (String × PostData)

/-- Cache `get`: `none` models a miss. -/
def cacheGet (c : Cache) (k : String) : Option PostData :=
  ((c.find? (fun e => e.1 == k)).map Prod.snd)

/-- Cache `set`: replace or append the entry for the key. -/
def cacheSet (c : Cache) (k : String) (v : PostData) : Cache :=
  if c.any (fun e => e.1 == k) then
    c.map (fun e => if e.1 == k then (k, v) else e)
  else c ++ [(k, v)]

/-- Cache `delete_many`. -/
def cacheDeleteMany (c : Cache) (ks : List String) : Cache :=
  c.filter (fun e => !ks.contains e.1)

/-- Embedding of `Thread.get_cached_post_data` (question.py lines
1188-1204), parametrized by the group-visibility set computed by
`get_groups_for_get_post_data`: with a non-empty group set the cache is
bypassed entirely; otherwise the result is served from the cache or
computed, stored and returned. -/
def get_cached_post_data (th : ThreadPosts) (stg : AggregatorSettings)
    (sort_method : Option SortMethod) (groups : List Nat) (c : Cache) :
    Except PostDataError (PostData × Cache) :=
  let sm := sort_method.getD stg.default_answer_sort_method
  if !groups.isEmpty then
    (get_post_data th stg (some sm) groups).map (fun d => (d, c))
  else
    let key := get_post_data_cache_key th.id sm
    match cacheGet c key with
    | some d => Except.ok (d, c)
    | none =>
      (get_post_data th stg (some sm) []).map
        (fun d => (d, cacheSet c key d))

/-- Embedding of `Thread.invalidate_cached_summary_html` (question.py lines
1026-1030); the activated display languages come from
`translation_utils.get_language_codes()` (not among the sources) and are
passed as a parameter.  Returns the cache after `delete_many` and the
deleted keys. -/
def invalidate_cached_summary_html (id : Nat) (langs : List String)
    (c : Cache) : Cache × List String :=
  let keys := langs.map (fun v => get_summary_cache_key id v)
  (cacheDeleteMany c keys, keys)

/-- Embedding of `Thread.invalidate_cached_post_data` (question.py lines
1042-1049): one key per known answer sort method is deleted. -/
def invalidate_cached_post_data (id : Nat) (c : Cache) :
    Cache × List String :=
  let keys := ANSWER_SORT_METHODS.map (fun v => get_post_data_cache_key id v)
  (cacheDeleteMany c keys, keys)

/-! ### `Thread.get_tag_names` -/

/-- Embedding of `Thread.get_tag_names` (question.py lines 964-969),
reading the denormalized `tagnames` field. -/
def get_tag_names (tagnames : String) : List String :=
  if pyStrip tagnames = "" then []
  else pySplitSpace tagnames

deriving instance DecidableEq for Except

/-! ### Concrete states used as witnesses -/

/-- A thread state with tags `python django`, both accepted with use count
1 and no references from other threads (the retag scenario of spec
section 8). -/
def dbScenario : TagDB :=
  { tags := [⟨"python", "en", TagStatus.accepted, 1⟩,
             ⟨"django", "en", TagStatus.accepted, 1⟩],
    synonyms := [],
    thread_tag_names := ["python", "django"],
    tagnames := "python django",
    language_code := "en",
    base_use := [] }

/-- A thread state whose attached tag `weird` is in suggested status
(pending tag moderation), with consistent use counts. -/
def dbSuggested : TagDB :=
  { tags := [⟨"python", "en", TagStatus.accepted, 1⟩,
             ⟨"weird", "en", TagStatus.suggested, 1⟩],
    synonyms := [],
    thread_tag_names := ["python", "weird"],
    tagnames := "python",
    language_code := "en",
    base_use := [] }

/-- Question post of the example thread. -/
def postQ : Post := ⟨0, PostType.question, false, true, 10, 0, 0, 0, []⟩

/-- Example answer posted at time 1 with 3 points. -/
def postA : Post := ⟨1, PostType.answer, false, true, 11, 0, 1, 3, []⟩

/-- Example answer posted at time 2 with 7 points. -/
def postB : Post := ⟨2, PostType.answer, false, true, 12, 0, 2, 7, []⟩

/-- Example thread whose accepted answer is `postA`, while `postB` is more
recent. -/
def thAccepted : ThreadPosts := ⟨5, [postQ, postA, postB], some 1⟩

/-- Example thread with two question posts. -/
def thTwoQuestions : ThreadPosts :=
  ⟨6, [postQ, ⟨3, PostType.question, false, true, 13, 0, 3, 0, []⟩], none⟩

/-- Settings with accepted-answer promotion enabled and `latest` as the
default sort method. -/
def stgShowFirst : AggregatorSettings := ⟨true, SortMethod.latest⟩

/-- Example thread whose accepted answer is `postB`, the top answer by
votes. -/
def thVotesAccepted : ThreadPosts := ⟨5, [postQ, postA, postB], some 2⟩

/-- The post data computed for the example threads: answers ordered
`[postB, postA]`. -/
def pdMain : PostData :=
  ⟨some postQ, [postB, postA], [(2, 12), (1, 11), (0, 10)], [1, 2], []⟩

/-! ### Helper lemmas -/

lemma fitTagnames_byteSize (ws : List String) :
    (" ".intercalate (fitTagnames ws)).utf8ByteSize ≤ 125 := by
  induction ws using fitTagnames.induct with
  | case1 ws h => rw [fitTagnames, if_pos h]; exact h
  | case2 ws h ih => rw [fitTagnames, if_neg h]; exact ih

lemma fitTagnames_eq_take (ws : List String) :
    ∃ k, fitTagnames ws = ws.take k := by
  induction ws using fitTagnames.induct with
  | case1 ws h =>
    exact ⟨ws.length, by rw [fitTagnames, if_pos h, List.take_length]⟩
  | case2 ws h ih =>
    obtain ⟨k, hk⟩ := ih
    refine ⟨min k (ws.length - 1), ?_⟩
    rw [fitTagnames, if_neg h, hk, List.dropLast_eq_take, List.take_take]

lemma pyStrip_eq_empty_iff (s : String) :
    pyStrip s = "" ↔ ∀ c ∈ s.data, isPySpace c = true := by
  rw [pyStrip]
  constructor
  · intro h c hc
    have hd : ((s.data.dropWhile isPySpace).reverse.dropWhile
        isPySpace).reverse = [] := congrArg String.data h
    rw [List.reverse_eq_nil_iff, List.dropWhile_eq_nil_iff] at hd
    have hall : ∀ x ∈ s.data.dropWhile isPySpace, isPySpace x = true :=
      fun x hx => hd x (List.mem_reverse.mpr hx)
    have hc2 : c ∈ List.takeWhile isPySpace s.data ++
        List.dropWhile isPySpace s.data := by
      rw [List.takeWhile_append_dropWhile]; exact hc
    rcases List.mem_append.mp hc2 with h1 | h2
    · exact List.mem_takeWhile_imp h1
    · exact hall _ h2
  · intro h
    rw [List.dropWhile_eq_nil_iff.mpr h]
    rfl

lemma string_append_left_cancel {p a b : String} (h : p ++ a = p ++ b) :
    a = b := by
  apply String.ext
  have hd := congrArg String.data h
  rw [String.data_append, String.data_append] at hd
  exact List.append_cancel_left hd

lemma get_summary_cache_key_injective (id : Nat) :
    Function.Injective (fun lang => get_summary_cache_key id lang) := by
  intro a b h
  have h' : get_summary_cache_key id a = get_summary_cache_key id b := h
  unfold get_summary_cache_key at h'
  exact string_append_left_cancel h'

lemma get_post_data_cache_key_injective (id : Nat) :
    Function.Injective (fun sm => get_post_data_cache_key id sm) := by
  intro a b h
  have h' : get_post_data_cache_key id a = get_post_data_cache_key id b := h
  unfold get_post_data_cache_key at h'
  have hn := string_append_left_cancel h'
  cases a <;> cases b <;> first | rfl | exact absurd hn (by decide)

/-! ### Claim theorems -/

/-- C3: for every input tag-name string, `clean_tagnames` produces a string
of at most 125 UTF-8 bytes, obtained by dropping trailing tags only: the
result is the space-join of a leading-segment of the input's words, so its
word set is a subset of the input's words. -/
theorem clean_tagnames_cap_and_trailing_only (s : String) :
    (clean_tagnames s).utf8ByteSize ≤ 125 ∧
    ∃ k, clean_tagnames s = " ".intercalate ((pyWords s).take k) ∧
      ∀ w ∈ (pyWords s).take k, w ∈ pyWords s := by
  refine ⟨fitTagnames_byteSize _, ?_⟩
  obtain ⟨k, hk⟩ := fitTagnames_eq_take (pyWords s)
  exact ⟨k, by rw [clean_tagnames, hk],
    fun w hw => List.take_subset k (pyWords s) hw⟩

/-- C8: for an empty or whitespace-only tag-name string, `update_tags`
returns immediately, leaving the tag associations, the denormalized tag
string and every use count unchanged. -/
theorem update_tags_whitespace_noop (db : TagDB) (s : String) (m : Bool)
    (h : ∀ c ∈ s.data, isPySpace c = true) :
    update_tags db s m = ⟨db, [], [], false⟩ := by
  rw [update_tags, if_pos ((pyStrip_eq_empty_iff s).mpr h)]

/-- C8 witness: the whitespace-only string `"  \t "` leaves the scenario
state untouched. -/
theorem update_tags_whitespace_noop_witness :
    update_tags dbScenario "  \t " true = ⟨dbScenario, [], [], false⟩ :=
  update_tags_whitespace_noop dbScenario "  \t " true (by decide)

/-- C10: `get_tag_names` returns the empty list when the stored `tagnames`
string is empty or whitespace-only, and otherwise splits the stored string
on single space characters, preserving the stored order. -/
theorem get_tag_names_spec (s : String) :
    ((∀ c ∈ s.data, isPySpace c = true) → get_tag_names s = []) ∧
    (¬(∀ c ∈ s.data, isPySpace c = true) →
      get_tag_names s = pySplitSpace s) := by
  constructor
  · intro h
    rw [get_tag_names, if_pos ((pyStrip_eq_empty_iff s).mpr h)]
  · intro h
    rw [get_tag_names,
      if_neg (fun he => h ((pyStrip_eq_empty_iff s).mp he))]

/-- C10 witness: a whitespace-only string yields `[]`, and `"a  b"` splits
on each single space into `["a", "", "b"]` in stored order. -/
theorem get_tag_names_spec_witness :
    get_tag_names " " = [] ∧ get_tag_names "a  b" = ["a", "", "b"] :=
  ⟨(get_tag_names_spec " ").1 (by decide), by
    rw [(get_tag_names_spec "a  b").2 (by decide)]; decide⟩

/-- C6: with a non-empty group-visibility set, `get_cached_post_data`
returns the freshly computed `get_post_data` result and leaves the cache
unchanged (the result does not depend on the cache contents); with an
empty group set and a cache miss on the thread/sort-method key, it
computes the result, stores it under that key, and returns it. -/
theorem get_cached_post_data_policy (th : ThreadPosts)
    (stg : AggregatorSettings) (sm : Option SortMethod) (groups : List Nat)
    (c : Cache) :
    (groups ≠ [] →
      get_cached_post_data th stg sm groups c =
        (get_post_data th stg (some (sm.getD stg.default_answer_sort_method))
          groups).map (fun d => (d, c))) ∧
    (groups = [] →
      cacheGet c (get_post_data_cache_key th.id
        (sm.getD stg.default_answer_sort_method)) = none →
      get_cached_post_data th stg sm groups c =
        (get_post_data th stg (some (sm.getD stg.default_answer_sort_method))
          []).map (fun d => (d, cacheSet c
            (get_post_data_cache_key th.id
              (sm.getD stg.default_answer_sort_method)) d))) := by
  constructor
  · intro hg
    have he : groups.isEmpty = false := by
      cases groups with
      | nil => exact absurd rfl hg
      | cons a l => rfl
    rw [get_cached_post_data]
    simp only [he, Bool.not_false, if_pos]
  · intro hg hmiss
    subst hg
    rw [get_cached_post_data]
    simp only [List.isEmpty_nil, Bool.not_true, if_neg, hmiss]
    rfl

/-- C6 witness: both branches at concrete inputs — a one-element group set
bypasses the empty cache, and the empty group set on an empty cache stores
the computed result. -/
theorem get_cached_post_data_policy_witness :
    (get_cached_post_data thAccepted stgShowFirst (some SortMethod.latest)
        [3] [] =
      (get_post_data thAccepted stgShowFirst (some SortMethod.latest)
        [3]).map (fun d => (d, ([] : Cache)))) ∧
    (get_cached_post_data thAccepted stgShowFirst (some SortMethod.latest)
        [] [] =
      (get_post_data thAccepted stgShowFirst (some SortMethod.latest)
        []).map (fun d => (d, cacheSet []
          (get_post_data_cache_key thAccepted.id SortMethod.latest) d))) :=
  ⟨(get_cached_post_data_policy thAccepted stgShowFirst
      (some SortMethod.latest) [3] []).1 (by decide),
   (get_cached_post_data_policy thAccepted stgShowFirst
      (some SortMethod.latest) [] []).2 rfl (by decide)⟩

/-- C9: `invalidate_cached_summary_html` deletes exactly one summary-HTML
key per activated display language, and `invalidate_cached_post_data`
deletes exactly one post-data key per known answer sort method: the
deleted key lists are the per-language/per-method key images, of matching
length and without duplicates. -/
theorem invalidation_one_key_each (id : Nat) (langs : List String)
    (c : Cache) :
    (invalidate_cached_summary_html id langs c).2 =
        langs.map (fun v => get_summary_cache_key id v) ∧
    (invalidate_cached_summary_html id langs c).2.length = langs.length ∧
    (langs.Nodup → (invalidate_cached_summary_html id langs c).2.Nodup) ∧
    (invalidate_cached_post_data id c).2 =
        ANSWER_SORT_METHODS.map (fun v => get_post_data_cache_key id v) ∧
    (invalidate_cached_post_data id c).2.length =
        ANSWER_SORT_METHODS.length ∧
    (invalidate_cached_post_data id c).2.Nodup := by
  refine ⟨rfl, by simp [invalidate_cached_summary_html], ?_, rfl,
    by simp [invalidate_cached_post_data], ?_⟩
  · intro hn
    exact List.Nodup.map (get_summary_cache_key_injective id) hn
  · have hn : ANSWER_SORT_METHODS.Nodup := by decide
    exact List.Nodup.map (get_post_data_cache_key_injective id) hn

/-- C9 witness: two activated languages and the three sort methods at a
concrete thread id. -/
theorem invalidation_one_key_each_witness :
    (invalidate_cached_summary_html 7 ["en", "de"] []).2 =
      ["thread-question-summary-7-en", "thread-question-summary-7-de"] ∧
    (invalidate_cached_summary_html 7 ["en", "de"] []).2.Nodup ∧
    (invalidate_cached_post_data 7 []).2 =
      ["thread-data-7-latest", "thread-data-7-oldest",
       "thread-data-7-votes"] ∧
    (invalidate_cached_post_data 7 []).2.Nodup := by
  have h := invalidation_one_key_each 7 ["en", "de"] []
  refine ⟨by decide, h.2.2.1 (by decide), by decide, h.2.2.2.2.2⟩

/-! ### Aggregator lemmas -/

lemma insOrd_perm (le : α → α → Bool) (x : α) (l : List α) :
    (insOrd le x l).Perm (x :: l) := by
  induction l with
  | nil => exact List.Perm.refl _
  | cons y ys ih =>
    rw [insOrd]
    by_cases h : le x y = true
    · rw [if_pos h]
    · rw [if_neg h]
      exact (ih.cons y).trans (List.Perm.swap x y ys)

lemma sortListBy_perm (le : α → α → Bool) (l : List α) :
    (sortListBy le l).Perm l := by
  induction l with
  | nil => exact List.Perm.refl _
  | cons x xs ih =>
    show (List.foldr (insOrd le) [] (x :: xs)).Perm (x :: xs)
    rw [List.foldr_cons]
    exact (insOrd_perm le x _).trans (ih.cons x)

lemma countP_sortListBy (le : α → α → Bool) (l : List α) (p : α → Bool) :
    (sortListBy le l).countP p = l.countP p :=
  (sortListBy_perm le l).countP_eq p

lemma cons_eraseP_perm {p : Post → Bool} {l : List Post} {a : Post}
    (h : l.find? p = some a) : (a :: l.eraseP p).Perm l := by
  induction l with
  | nil => simp at h
  | cons y ys ih =>
    by_cases hy : p y = true
    · rw [List.find?_cons_of_pos _ hy] at h
      cases h
      rw [List.eraseP_cons_of_pos hy]
    · rw [List.find?_cons_of_neg _ hy] at h
      rw [List.eraseP_cons_of_neg hy]
      exact (List.Perm.swap y a _).trans ((ih h).cons y)

lemma moveToFront_perm (aid : Nat) (l : List Post) :
    (moveToFront aid l).Perm l := by
  cases hf : l.find? (fun p => p.id == aid) with
  | none => rw [moveToFront, hf]
  | some a =>
    rw [moveToFront, hf]
    exact cons_eraseP_perm hf

lemma foldl_moveToFront_perm (ids : List Nat) (l : List Post) :
    (ids.foldl (fun acc i => moveToFront i acc) l).Perm l := by
  induction ids generalizing l with
  | nil => exact List.Perm.refl _
  | cons i rest ih =>
    rw [List.foldl_cons]
    exact (ih (moveToFront i l)).trans (moveToFront_perm i l)

lemma foldl_moveToFront_head (ids : List Nat) (aid : Nat)
    (hlast : ids.getLast? = some aid) (l : List Post)
    (hmem : ∃ p ∈ l, p.id = aid) :
    ∃ p, (ids.foldl (fun acc i => moveToFront i acc) l).head? = some p ∧
      p.id = aid := by
  induction ids using List.reverseRecOn with
  | nil => simp at hlast
  | append_singleton rest x _ =>
    rw [List.getLast?_concat] at hlast
    have hx : x = aid := by injection hlast
    rw [List.foldl_append, List.foldl_cons, List.foldl_nil, hx]
    obtain ⟨p, hp, hid⟩ := hmem
    have hp' : p ∈ rest.foldl (fun acc i => moveToFront i acc) l :=
      (foldl_moveToFront_perm rest l).mem_iff.mpr hp
    cases hf : (rest.foldl (fun acc i => moveToFront i acc) l).find?
        (fun q => q.id == aid) with
    | none =>
      exact absurd (List.find?_eq_none.mp hf p hp') (by simp [hid])
    | some a =>
      refine ⟨a, ?_, ?_⟩
      · rw [moveToFront, hf]
        rfl
      · simpa using List.find?_some hf

lemma collectPosts_ok_answers (ps : List Post) :
    ∀ q ans p2a cmap out,
      collectPosts ps q ans p2a cmap = Except.ok out →
      out.2.1 = ans ++ ps.filter isLiveAnswer := by
  induction ps with
  | nil =>
    intro q ans p2a cmap out h
    rw [collectPosts] at h
    injection h with h
    subst h
    simp
  | cons p ps ih =>
    intro q ans p2a cmap out h
    rw [collectPosts] at h
    by_cases h1 : (p.post_type == PostType.other) = true
    · rw [if_pos h1] at h
      rw [ih _ _ _ _ _ h, List.filter_cons_of_neg
        (by simp [isLiveAnswer, beq_iff_eq.mp h1])]
    · rw [if_neg h1] at h
      by_cases h2 : (p.deleted && !(p.post_type == PostType.question)) = true
      · rw [if_pos h2] at h
        have hdel : p.deleted = true := by
          rcases Bool.and_eq_true_iff.mp h2 with ⟨hd, _⟩
          exact hd
        rw [ih _ _ _ _ _ h, List.filter_cons_of_neg
          (by simp [isLiveAnswer, hdel])]
      · rw [if_neg h2] at h
        by_cases h3 : (!p.approved) = true
        · rw [if_pos h3] at h
          have happ : p.approved = false := by simpa using h3
          rw [ih _ _ _ _ _ h, List.filter_cons_of_neg
            (by simp [isLiveAnswer, happ])]
        · rw [if_neg h3] at h
          have happ : p.approved = true := by simpa using h3
          cases hpt : p.post_type with
          | answer =>
            rw [hpt] at h
            have hdel : p.deleted = false := by
              cases hd : p.deleted
              · rfl
              · exact absurd (by simp [hpt, hd]) h2
            rw [ih _ _ _ _ _ h, List.filter_cons_of_pos
              (by simp [isLiveAnswer, hpt, hdel, happ])]
            simp
          | comment =>
            rw [hpt] at h
            rw [ih _ _ _ _ _ h, List.filter_cons_of_neg
              (by simp [isLiveAnswer, hpt])]
          | question =>
            rw [hpt] at h
            by_cases hq : q.isSome = true
            · rw [if_pos hq] at h
              simp at h
            · rw [if_neg hq] at h
              rw [ih _ _ _ _ _ h, List.filter_cons_of_neg
                (by simp [isLiveAnswer, hpt])]
          | other =>
            rw [hpt] at h1
            simp at h1

lemma collectPosts_ok_of_questions_le (ps : List Post) :
    ∀ q ans p2a cmap,
      ps.countP (fun p => p.post_type == PostType.question) +
        (if q.isSome then 1 else 0) ≤ 1 →
      ∃ out, collectPosts ps q ans p2a cmap = Except.ok out := by
  induction ps with
  | nil =>
    intro q ans p2a cmap _
    exact ⟨_, rfl⟩
  | cons p ps ih =>
    intro q ans p2a cmap hcount
    have hmono : ps.countP (fun p => p.post_type == PostType.question) ≤
        (p :: ps).countP (fun p => p.post_type == PostType.question) := by
      rw [List.countP_cons]
      exact Nat.le_add_right _ _
    have hskip : ps.countP (fun p => p.post_type == PostType.question) +
        (if q.isSome then 1 else 0) ≤ 1 := by omega
    rw [collectPosts]
    by_cases h1 : (p.post_type == PostType.other) = true
    · rw [if_pos h1]
      exact ih q ans p2a cmap hskip
    · rw [if_neg h1]
      by_cases h2 : (p.deleted && !(p.post_type == PostType.question)) = true
      · rw [if_pos h2]
        exact ih q ans p2a cmap hskip
      · rw [if_neg h2]
        by_cases h3 : (!p.approved) = true
        · rw [if_pos h3]
          exact ih q ans p2a cmap hskip
        · rw [if_neg h3]
          cases hpt : p.post_type with
          | answer => exact ih q _ _ cmap hskip
          | comment => exact ih q ans _ _ hskip
          | question =>
            have hq1 : (p :: ps).countP
                (fun p => p.post_type == PostType.question) =
                ps.countP (fun p => p.post_type == PostType.question) + 1 :=
              List.countP_cons_of_pos _ _ (by simp [hpt])
            rw [hq1] at hcount
            by_cases hq : q.isSome = true
            · rw [if_pos hq] at hcount
              exact absurd hcount (by omega)
            · rw [if_neg hq]
              rw [if_neg hq] at hcount
              refine ih (some p) ans _ cmap ?_
              show ps.countP (fun p => p.post_type == PostType.question) +
                1 ≤ 1
              omega
          | other =>
            rw [hpt] at h1
            simp at h1

lemma collectPosts_error_of_two_questions (ps : List Post) :
    ∀ q ans p2a cmap,
      2 ≤ ps.countP (fun p => p.post_type == PostType.question && p.approved)
          + (if q.isSome then 1 else 0) →
      collectPosts ps q ans p2a cmap =
        Except.error PostDataError.assertionFailed := by
  induction ps with
  | nil =>
    intro q ans p2a cmap hcount
    rw [List.countP_nil] at hcount
    by_cases hq : q.isSome = true
    · rw [if_pos hq] at hcount
      omega
    · rw [if_neg hq] at hcount
      omega
  | cons p ps ih =>
    intro q ans p2a cmap hcount
    rw [collectPosts]
    by_cases h1 : (p.post_type == PostType.other) = true
    · rw [if_pos h1]
      refine ih q ans p2a cmap ?_
      rw [List.countP_cons_of_neg _ _ (by simp [beq_iff_eq.mp h1])] at hcount
      exact hcount
    · rw [if_neg h1]
      by_cases h2 : (p.deleted && !(p.post_type == PostType.question)) = true
      · rw [if_pos h2]
        refine ih q ans p2a cmap ?_
        rcases Bool.and_eq_true_iff.mp h2 with ⟨_, hnq⟩
        rw [List.countP_cons_of_neg _ _ (by
          simp only [Bool.not_eq_true'] at hnq
          simp [hnq])] at hcount
        exact hcount
      · rw [if_neg h2]
        by_cases h3 : (!p.approved) = true
        · rw [if_pos h3]
          refine ih q ans p2a cmap ?_
          have happ : p.approved = false := by simpa using h3
          rw [List.countP_cons_of_neg _ _ (by simp [happ])] at hcount
          exact hcount
        · rw [if_neg h3]
          have happ : p.approved = true := by simpa using h3
          cases hpt : p.post_type with
          | answer =>
            refine ih q _ _ cmap ?_
            rw [List.countP_cons_of_neg _ _ (by simp [hpt])] at hcount
            exact hcount
          | comment =>
            refine ih q ans _ _ ?_
            rw [List.countP_cons_of_neg _ _ (by simp [hpt])] at hcount
            exact hcount
          | question =>
            rw [List.countP_cons_of_pos _ _ (by simp [hpt, happ])] at hcount
            by_cases hq : q.isSome = true
            · rw [if_pos hq]
            · rw [if_neg hq]
              rw [if_neg hq] at hcount
              refine ih (some p) ans _ cmap ?_
              show 2 ≤ ps.countP
                (fun p => p.post_type == PostType.question && p.approved) + 1
              omega
          | other =>
            rw [hpt] at h1
            simp at h1

lemma promoteAccepted_ok_perm {th : ThreadPosts} {b : Bool}
    {ids : List Nat} {l l' : List Post}
    (h : promoteAccepted th b ids l = Except.ok l') : l'.Perm l := by
  rw [promoteAccepted] at h
  split at h
  · split at h
    · injection h with h
      subst h
      exact List.Perm.refl _
    · split at h
      · simp at h
      · split at h
        · split at h
          · split at h
            · rename_i a hfa
              injection h with h
              subst h
              exact cons_eraseP_perm hfa
            · simp at h
          · injection h with h
            subst h
            exact List.Perm.refl _
        · injection h with h
          subst h
          exact List.Perm.refl _
  · injection h with h
    subst h
    exact List.Perm.refl _

lemma promoteAccepted_error_ne {th : ThreadPosts} {b : Bool}
    {ids : List Nat} {l : List Post} {e : PostDataError}
    (h : promoteAccepted th b ids l = Except.error e) :
    e ≠ PostDataError.assertionFailed := by
  rw [promoteAccepted] at h
  split at h
  · split at h
    · simp at h
    · split at h
      · injection h with h
        subst h
        decide
      · split at h
        · split at h
          · split at h
            · simp at h
            · injection h with h
              subst h
              decide
          · simp at h
        · simp at h
  · simp at h

/-! ### Tag machinery lemmas -/

lemma contains_iff_mem {α} [BEq α] [LawfulBEq α] {l : List α} {a : α} :
    l.contains a = true ↔ a ∈ l := by
  simp

lemma mem_insertName {x n : String} {l : List String} :
    x ∈ insertName n l ↔ x ∈ l ∨ x = n := by
  rw [insertName]
  by_cases h : n ∈ l
  · rw [if_pos h]
    constructor
    · exact Or.inl
    · rintro (hx | rfl)
      · exact hx
      · exact h
  · rw [if_neg h]
    simp

lemma mem_foldl_insertName (ns : List String) (init : List String)
    (x : String) :
    x ∈ ns.foldl (fun acc n => insertName n acc) init ↔
      x ∈ init ∨ x ∈ ns := by
  induction ns generalizing init with
  | nil => simp
  | cons n rest ih =>
    rw [List.foldl_cons, ih]
    constructor
    · rintro (hx | hr)
      · rcases mem_insertName.mp hx with hx | rfl
        · exact Or.inl hx
        · exact Or.inr (List.mem_cons_self _ _)
      · exact Or.inr (List.mem_cons_of_mem _ hr)
    · rintro (hx | hc)
      · exact Or.inl (mem_insertName.mpr (Or.inl hx))
      · rcases List.mem_cons.mp hc with rfl | hr
        · exact Or.inl (mem_insertName.mpr (Or.inr rfl))
        · exact Or.inr hr

lemma foldl_insertName_eq_self (ns : List String) (init : List String)
    (h : ∀ n ∈ ns, n ∈ init) :
    ns.foldl (fun acc n => insertName n acc) init = init := by
  induction ns generalizing init with
  | nil => rfl
  | cons n rest ih =>
    rw [List.foldl_cons, insertName, if_pos (h n (List.mem_cons_self _ _))]
    exact ih init (fun m hm => h m (List.mem_cons_of_mem _ hm))

lemma mem_dedupNames (l : List String) (x : String) :
    x ∈ dedupNames l ↔ x ∈ l := by
  rw [dedupNames, mem_foldl_insertName]
  simp

lemma map_eq_self_of {α} {f : α → α} {l : List α}
    (h : ∀ x ∈ l, f x = x) : l.map f = l := by
  induction l with
  | nil => rfl
  | cons a l ih =>
    rw [List.map_cons, h a (List.mem_cons_self _ _),
      ih (fun x hx => h x (List.mem_cons_of_mem _ hx))]

lemma bumpSynonym_synProj (db : TagDB) (n : String) :
    synProj (bumpSynonym db n) = synProj db := by
  rw [synProj, bumpSynonym, synProj]
  simp only [List.map_map]
  refine List.map_congr_left (fun s _ => ?_)
  by_cases h : (s.source_tag_name == n &&
      s.language_code == db.language_code) = true
  · simp [Function.comp, h]
  · simp [Function.comp, h]

lemma find?_synonym_congr (L : String) (n : String) :
    ∀ (l' l : List TagSynonym),
      l'.map (fun s =>
        (s.source_tag_name, s.target_tag_name, s.language_code)) =
      l.map (fun s =>
        (s.source_tag_name, s.target_tag_name, s.language_code)) →
      (l'.find? (fun s =>
        s.source_tag_name == n && s.language_code == L)).map
          (fun s => s.target_tag_name) =
      (l.find? (fun s =>
        s.source_tag_name == n && s.language_code == L)).map
          (fun s => s.target_tag_name) := by
  intro l'
  induction l' with
  | nil =>
    intro l h
    cases l with
    | nil => rfl
    | cons b l3 => simp at h
  | cons a l2 ih =>
    intro l h
    cases l with
    | nil => simp at h
    | cons b l3 =>
      rw [List.map_cons, List.map_cons] at h
      injection h with h1 h2
      have hsrc : a.source_tag_name = b.source_tag_name :=
        congrArg (fun p => p.1) h1
      have htgt : a.target_tag_name = b.target_tag_name :=
        congrArg (fun p => p.2.1) h1
      have hlang : a.language_code = b.language_code :=
        congrArg (fun p => p.2.2) h1
      by_cases hb : (b.source_tag_name == n && b.language_code == L) = true
      · have ha : (a.source_tag_name == n && a.language_code == L) = true := by
          rw [hsrc, hlang]
          exact hb
        rw [List.find?_cons_of_pos
            (p := fun s : TagSynonym => s.source_tag_name == n && s.language_code == L)
            _ ha,
          List.find?_cons_of_pos
            (p := fun s : TagSynonym => s.source_tag_name == n && s.language_code == L)
            _ hb]
        simp [htgt]
      · have ha : ¬(a.source_tag_name == n && a.language_code == L) = true := by
          rw [hsrc, hlang]
          exact hb
        rw [List.find?_cons_of_neg
            (p := fun s : TagSynonym => s.source_tag_name == n && s.language_code == L)
            _ ha,
          List.find?_cons_of_neg
            (p := fun s : TagSynonym => s.source_tag_name == n && s.language_code == L)
            _ hb]
        exact ih l3 h2

lemma applySynonymsStep_state (acc : List String × TagDB) (n : String) :
    (applySynonymsStep acc n).2.tags = acc.2.tags ∧
    (applySynonymsStep acc n).2.thread_tag_names = acc.2.thread_tag_names ∧
    (applySynonymsStep acc n).2.tagnames = acc.2.tagnames ∧
    (applySynonymsStep acc n).2.language_code = acc.2.language_code ∧
    (applySynonymsStep acc n).2.base_use = acc.2.base_use ∧
    synProj (applySynonymsStep acc n).2 = synProj acc.2 := by
  cases hfs : findSynonym acc.2 n with
  | some syn =>
    rw [applySynonymsStep, hfs]
    exact ⟨rfl, rfl, rfl, rfl, rfl, bumpSynonym_synProj _ _⟩
  | none =>
    rw [applySynonymsStep, hfs]
    exact ⟨rfl, rfl, rfl, rfl, rfl, rfl⟩

lemma applySynonyms_state (db : TagDB) (ns : List String) :
    (applySynonyms db ns).2.tags = db.tags ∧
    (applySynonyms db ns).2.thread_tag_names = db.thread_tag_names ∧
    (applySynonyms db ns).2.tagnames = db.tagnames ∧
    (applySynonyms db ns).2.language_code = db.language_code ∧
    (applySynonyms db ns).2.base_use = db.base_use ∧
    synProj (applySynonyms db ns).2 = synProj db := by
  rw [applySynonyms]
  suffices h : ∀ acc : List String × TagDB,
      (ns.foldl applySynonymsStep acc).2.tags = acc.2.tags ∧
      (ns.foldl applySynonymsStep acc).2.thread_tag_names =
        acc.2.thread_tag_names ∧
      (ns.foldl applySynonymsStep acc).2.tagnames = acc.2.tagnames ∧
      (ns.foldl applySynonymsStep acc).2.language_code =
        acc.2.language_code ∧
      (ns.foldl applySynonymsStep acc).2.base_use = acc.2.base_use ∧
      synProj (ns.foldl applySynonymsStep acc).2 = synProj acc.2 by
    exact h ([], db)
  induction ns with
  | nil => intro acc; exact ⟨rfl, rfl, rfl, rfl, rfl, rfl⟩
  | cons n rest ih =>
    intro acc
    rw [List.foldl_cons]
    obtain ⟨h1, h2, h3, h4, h5, h6⟩ := ih (applySynonymsStep acc n)
    obtain ⟨g1, g2, g3, g4, g5, g6⟩ := applySynonymsStep_state acc n
    exact ⟨h1.trans g1, h2.trans g2, h3.trans g3, h4.trans g4,
      h5.trans g5, h6.trans g6⟩

lemma applySynonyms_fst_congr :
    ∀ (ns : List String) (acc1 : List String) (st' st : TagDB),
      synProj st' = synProj st → st'.language_code = st.language_code →
      (ns.foldl applySynonymsStep (acc1, st')).1 =
      (ns.foldl applySynonymsStep (acc1, st)).1 := by
  intro ns
  induction ns with
  | nil => intro acc1 st' st _ _; rfl
  | cons n rest ih =>
    intro acc1 st' st hproj hlang
    rw [List.foldl_cons, List.foldl_cons]
    have hfind : (findSynonym st' n).map (fun s => s.target_tag_name) =
        (findSynonym st n).map (fun s => s.target_tag_name) := by
      rw [findSynonym, findSynonym, hlang]
      exact find?_synonym_congr st.language_code n st'.synonyms st.synonyms
        hproj
    cases hf' : findSynonym st' n with
    | none =>
      cases hf : findSynonym st n with
      | none =>
        have e1 : applySynonymsStep (acc1, st') n = (insertName n acc1, st') :=
          by simp [applySynonymsStep, hf']
        have e2 : applySynonymsStep (acc1, st) n = (insertName n acc1, st) :=
          by simp [applySynonymsStep, hf]
        rw [e1, e2]
        exact ih _ st' st hproj hlang
      | some s =>
        rw [hf', hf] at hfind
        simp at hfind
    | some s' =>
      cases hf : findSynonym st n with
      | none =>
        rw [hf', hf] at hfind
        simp at hfind
      | some s =>
        rw [hf', hf] at hfind
        have htgt : s'.target_tag_name = s.target_tag_name := by
          simpa using hfind
        have e1 : applySynonymsStep (acc1, st') n =
            (insertName s'.target_tag_name acc1, bumpSynonym st' n) := by
          simp [applySynonymsStep, hf']
        have e2 : applySynonymsStep (acc1, st) n =
            (insertName s.target_tag_name acc1, bumpSynonym st n) := by
          simp [applySynonymsStep, hf]
        rw [e1, e2, htgt]
        refine ih _ (bumpSynonym st' n) (bumpSynonym st n) ?_ ?_
        · rw [bumpSynonym_synProj, bumpSynonym_synProj]
          exact hproj
        · exact hlang

lemma updatedTagnames_congr (db' db : TagDB) (ordered : List String)
    (hproj : synProj db' = synProj db)
    (hlang : db'.language_code = db.language_code) :
    updatedTagnames db' ordered = updatedTagnames db ordered := by
  rw [updatedTagnames, updatedTagnames, applySynonyms, applySynonyms]
  exact applySynonyms_fst_congr _ [] db' db hproj hlang

lemma removeTagRow_fields (L : String) (thr ns : List String) (t : Tag) :
    (removeTagRow L thr ns t).name = t.name ∧
    (removeTagRow L thr ns t).language_code = t.language_code ∧
    (removeTagRow L thr ns t).status = t.status := by
  rw [removeTagRow]
  split
  · exact ⟨rfl, rfl, rfl⟩
  · exact ⟨rfl, rfl, rfl⟩

lemma markTagRow_fields (L : String) (ns : List String) (t : Tag) :
    (markTagRow L ns t).name = t.name ∧
    (markTagRow L ns t).language_code = t.language_code ∧
    (markTagRow L ns t).used_count = t.used_count := by
  rw [markTagRow]
  split
  · exact ⟨rfl, rfl, rfl⟩
  · exact ⟨rfl, rfl, rfl⟩

lemma markTagRow_status (L : String) (ns : List String) (t : Tag) :
    (markTagRow L ns t).status = t.status ∨
      (t.language_code = L ∧ t.name ∈ ns ∧ t.status = TagStatus.deleted ∧
        (markTagRow L ns t).status = TagStatus.accepted) := by
  rw [markTagRow]
  split
  · rename_i h
    simp only [Bool.and_eq_true, beq_iff_eq] at h
    exact Or.inr ⟨h.1.1, contains_iff_mem.mp h.1.2, h.2, rfl⟩
  · exact Or.inl rfl

lemma markTagRow_not_deleted (L : String) (ns : List String) (t : Tag)
    (hl : t.language_code = L) (hn : t.name ∈ ns) :
    (markTagRow L ns t).status ≠ TagStatus.deleted := by
  rw [markTagRow]
  by_cases hd : t.status = TagStatus.deleted
  · rw [if_pos (by simp [hl, hn, hd])]
    intro hc
    exact TagStatus.noConfusion hc
  · rw [if_neg (by simp [hd])]
    exact hd

lemma recalcTagRow_fields (db : TagDB) (ns : List String) (t : Tag) :
    (recalcTagRow db ns t).name = t.name ∧
    (recalcTagRow db ns t).language_code = t.language_code ∧
    (recalcTagRow db ns t).status = t.status := by
  rw [recalcTagRow]
  split
  · exact ⟨rfl, rfl, rfl⟩
  · exact ⟨rfl, rfl, rfl⟩

lemma recalcTagRow_count (db : TagDB) (ns : List String) (t : Tag)
    (hl : t.language_code = db.language_code) (hn : t.name ∈ ns) :
    (recalcTagRow db ns t).used_count = (baseUse db t.name : Int) +
      (if db.thread_tag_names.contains t.name then 1 else 0) := by
  rw [recalcTagRow, if_pos (by simp [hl, hn])]

lemma recalcTagRow_eq_self (db : TagDB) (ns : List String) (t : Tag)
    (h : t.language_code = db.language_code → t.name ∈ ns →
      t.used_count = (baseUse db t.name : Int) +
        (if db.thread_tag_names.contains t.name then 1 else 0)) :
    recalcTagRow db ns t = t := by
  rw [recalcTagRow]
  split
  · rename_i hc
    simp only [Bool.and_eq_true, beq_iff_eq] at hc
    rw [← h hc.1 (contains_iff_mem.mp hc.2)]
  · rfl

lemma baseUse_congr {db' db : TagDB} (h : db'.base_use = db.base_use)
    (n : String) : baseUse db' n = baseUse db n := by
  rw [baseUse, baseUse, h]

lemma newTagRow_fields (L : String) (m : Bool) (n : String) :
    (newTagRow L m n).name = n ∧ (newTagRow L m n).language_code = L ∧
    (newTagRow L m n).status ≠ TagStatus.deleted ∧
    (newTagRow L m n).used_count = 0 := by
  refine ⟨rfl, rfl, ?_, rfl⟩
  rw [newTagRow]
  cases m
  · exact fun hc => TagStatus.noConfusion hc
  · exact fun hc => TagStatus.noConfusion hc

lemma previousTagnames_rows (db : TagDB) :
    ∀ n ∈ previousTagnames db, ∃ t ∈ db.tags,
      t.name = n ∧ t.language_code = db.language_code ∧
      t.status = TagStatus.accepted ∧ n ∈ db.thread_tag_names := by
  intro n hn
  obtain ⟨t, ht, rfl⟩ := List.mem_map.mp hn
  obtain ⟨hatt, hacc⟩ := List.mem_filter.mp ht
  obtain ⟨htags, hpred⟩ := List.mem_filter.mp hatt
  simp only [Bool.and_eq_true, beq_iff_eq] at hpred
  exact ⟨t, htags, rfl, hpred.1, by simpa using hacc,
    contains_iff_mem.mp hpred.2⟩

lemma previousTagnames_of_row (db : TagDB) (t : Tag) (ht : t ∈ db.tags)
    (hl : t.language_code = db.language_code)
    (hacc : t.status = TagStatus.accepted)
    (hatt : t.name ∈ db.thread_tag_names) :
    t.name ∈ previousTagnames db := by
  refine List.mem_map.mpr ⟨t, List.mem_filter.mpr ⟨?_, by simp [hacc]⟩, rfl⟩
  exact List.mem_filter.mpr ⟨ht, by simp [hl, hatt]⟩

lemma remove_thread_of_rows (db : TagDB) (ns : List String)
    (hrows : ∀ n ∈ ns, ∃ t ∈ db.tags,
      t.name = n ∧ t.language_code = db.language_code) :
    (remove_tags_by_names db ns).1.thread_tag_names =
      db.thread_tag_names.filter (fun n => !ns.contains n) := by
  show db.thread_tag_names.filter _ = _
  refine List.filter_congr (fun n _ => ?_)
  by_cases hn : ns.contains n = true
  · obtain ⟨t, ht, hname, hlang⟩ := hrows n (contains_iff_mem.mp hn)
    have hany : db.tags.any (fun t =>
        t.name == n && t.language_code == db.language_code) = true :=
      List.any_eq_true.mpr ⟨t, ht, by simp [hname, hlang]⟩
    rw [hn, hany]
    rfl
  · have hnf : ns.contains n = false := by
      cases hcb : ns.contains n
      · rfl
      · exact absurd hcb hn
    rw [hnf]
    rfl

lemma remove_removed_names_mem (db : TagDB) (ns : List String) (n : String)
    (hsub : ∀ x ∈ ns, ∃ t ∈ db.attachedTags, t.name = x) :
    n ∈ (remove_tags_by_names db ns).2.map Tag.name ↔ n ∈ ns := by
  constructor
  · intro h
    obtain ⟨t, ht, hn⟩ := List.mem_map.mp h
    obtain ⟨t0, ht0, hdec⟩ := List.mem_map.mp ht
    have hc := (List.mem_filter.mp ht0).2
    have hname : t0.name = n := by
      have : t.name = n := hn
      rw [← this, ← hdec]
    exact contains_iff_mem.mp (hname ▸ hc)
  · intro h
    obtain ⟨t, ht, hname⟩ := hsub n h
    refine List.mem_map.mpr
      ⟨{ t with used_count := t.used_count - 1 },
        List.mem_map.mpr ⟨t, List.mem_filter.mpr ⟨ht, by simp [hname, h]⟩,
          rfl⟩, hname⟩

lemma resolveAdded_of_ne (db : TagDB) (addN : List String) (m : Bool)
    (h : addN.isEmpty = false) :
    resolveAdded db addN m =
      (let db3tags := db.tags.map (markTagRow db.language_code
          ((get_tags_by_names db addN).1.map Tag.name))
      let created := (get_tags_by_names db addN).2.map
          (newTagRow db.language_code m)
      let added := db3tags.filter (fun t =>
          t.language_code == db.language_code && addN.contains t.name) ++
        created
      ({ db with
          tags := db3tags ++ created,
          thread_tag_names := (added.map Tag.name).foldl
            (fun acc n => insertName n acc) db.thread_tag_names },
        added)) := by
  rw [resolveAdded, if_neg (by simp [h])]
  rfl

lemma resolveAdded_fields (db : TagDB) (addN : List String) (m : Bool) :
    (resolveAdded db addN m).1.synonyms = db.synonyms ∧
    (resolveAdded db addN m).1.tagnames = db.tagnames ∧
    (resolveAdded db addN m).1.language_code = db.language_code ∧
    (resolveAdded db addN m).1.base_use = db.base_use := by
  rw [resolveAdded]
  split
  · exact ⟨rfl, rfl, rfl, rfl⟩
  · exact ⟨rfl, rfl, rfl, rfl⟩

lemma resolveAdded_thread (db : TagDB) (addN : List String) (m : Bool) :
    (resolveAdded db addN m).1.thread_tag_names =
      ((resolveAdded db addN m).2.map Tag.name).foldl
        (fun acc n => insertName n acc) db.thread_tag_names := by
  rw [resolveAdded]
  split
  · rfl
  · rfl

lemma isEmpty_false_of_not {l : List String} (h : ¬l.isEmpty = true) :
    l.isEmpty = false := by
  cases hie : l.isEmpty
  · rfl
  · exact absurd hie h

lemma resolveAdded_names_mem (db : TagDB) (addN : List String) (m : Bool)
    (n : String) :
    n ∈ (resolveAdded db addN m).2.map Tag.name ↔ n ∈ addN := by
  by_cases he : addN.isEmpty = true
  · have hnil : addN = [] := List.isEmpty_iff.mp he
    subst hnil
    rw [resolveAdded]
    simp
  · rw [resolveAdded_of_ne db addN m (isEmpty_false_of_not he)]
    dsimp only
    constructor
    · intro h
      obtain ⟨t, ht, rfl⟩ := List.mem_map.mp h
      rcases List.mem_append.mp ht with hre | hcr
      · have hc := (List.mem_filter.mp hre).2
        simp only [Bool.and_eq_true] at hc
        exact contains_iff_mem.mp hc.2
      · obtain ⟨nm, hnm, rfl⟩ := List.mem_map.mp hcr
        have hn2 : nm ∈ addN := (List.mem_filter.mp hnm).1
        exact ((newTagRow_fields db.language_code m nm).1).symm ▸ hn2
    · intro h
      by_cases hrow : db.tags.any (fun t =>
          t.language_code == db.language_code && t.name == n) = true
      · obtain ⟨t, ht, hpred⟩ := List.any_eq_true.mp hrow
        simp only [Bool.and_eq_true, beq_iff_eq] at hpred
        refine List.mem_map.mpr
          ⟨markTagRow db.language_code
            ((get_tags_by_names db addN).1.map Tag.name) t,
            List.mem_append.mpr (Or.inl ?_), ?_⟩
        · refine List.mem_filter.mpr ⟨List.mem_map_of_mem _ ht, ?_⟩
          have hf := markTagRow_fields db.language_code
            ((get_tags_by_names db addN).1.map Tag.name) t
          simp [hf.1, hf.2.1, hpred.1, hpred.2, h]
        · have hf := markTagRow_fields db.language_code
            ((get_tags_by_names db addN).1.map Tag.name) t
          rw [hf.1, hpred.2]
      · have hany : db.tags.any (fun t =>
            t.language_code == db.language_code && t.name == n) = false := by
          cases hx : db.tags.any (fun t =>
              t.language_code == db.language_code && t.name == n)
          · rfl
          · exact absurd hx hrow
        have hn2 : n ∈ (get_tags_by_names db addN).2 := by
          rw [get_tags_by_names]
          exact List.mem_filter.mpr ⟨h, by simp [hany]⟩
        exact List.mem_map.mpr
          ⟨newTagRow db.language_code m n,
            List.mem_append.mpr (Or.inr (List.mem_map_of_mem _ hn2)),
            (newTagRow_fields db.language_code m n).1⟩

lemma resolveAdded_added_mem_tags (db : TagDB) (addN : List String)
    (m : Bool) :
    ∀ t ∈ (resolveAdded db addN m).2, t ∈ (resolveAdded db addN m).1.tags ∧
      t.language_code = db.language_code := by
  by_cases he : addN.isEmpty = true
  · rw [List.isEmpty_iff.mp he, resolveAdded]
    intro t ht
    simp at ht
  · rw [resolveAdded_of_ne db addN m (isEmpty_false_of_not he)]
    dsimp only
    intro t ht
    rcases List.mem_append.mp ht with hre | hcr
    · have hc := (List.mem_filter.mp hre).2
      simp only [Bool.and_eq_true, beq_iff_eq] at hc
      exact ⟨List.mem_append.mpr (Or.inl (List.mem_filter.mp hre).1), hc.1⟩
    · obtain ⟨nm, hnm, rfl⟩ := List.mem_map.mp hcr
      exact ⟨List.mem_append.mpr (Or.inr (List.mem_map_of_mem _ hnm)),
        (newTagRow_fields db.language_code m nm).2.1⟩

lemma resolveAdded_row_forward (db : TagDB) (addN : List String) (m : Bool) :
    ∀ t0 ∈ db.tags, ∃ t ∈ (resolveAdded db addN m).1.tags,
      t.name = t0.name ∧ t.language_code = t0.language_code ∧
      t.used_count = t0.used_count ∧
      (t.status = t0.status ∨
        (t0.status = TagStatus.deleted ∧ t.status = TagStatus.accepted)) := by
  intro t0 h0
  by_cases he : addN.isEmpty = true
  · rw [List.isEmpty_iff.mp he]
    exact ⟨t0, h0, rfl, rfl, rfl, Or.inl rfl⟩
  · rw [resolveAdded_of_ne db addN m (isEmpty_false_of_not he)]
    dsimp only
    refine ⟨markTagRow db.language_code
        ((get_tags_by_names db addN).1.map Tag.name) t0,
      List.mem_append.mpr (Or.inl (List.mem_map_of_mem _ h0)), ?_, ?_, ?_, ?_⟩
    · exact (markTagRow_fields _ _ t0).1
    · exact (markTagRow_fields _ _ t0).2.1
    · exact (markTagRow_fields _ _ t0).2.2
    · rcases markTagRow_status db.language_code
        ((get_tags_by_names db addN).1.map Tag.name) t0 with h | h
      · exact Or.inl h
      · exact Or.inr ⟨h.2.2.1, h.2.2.2⟩

lemma resolveAdded_row_backward (db : TagDB) (addN : List String)
    (m : Bool) :
    ∀ t ∈ (resolveAdded db addN m).1.tags,
      (∃ t0 ∈ db.tags, t0.name = t.name ∧
        t0.language_code = t.language_code ∧
        t0.used_count = t.used_count ∧
        (t.status = t0.status ∨
          (t.name ∈ addN ∧ t0.status = TagStatus.deleted ∧
            t.status = TagStatus.accepted))) ∨
      (t.name ∈ addN ∧ t.language_code = db.language_code ∧
        t.status ≠ TagStatus.deleted ∧ t.used_count = 0) := by
  intro t ht
  by_cases he : addN.isEmpty = true
  · rw [List.isEmpty_iff.mp he] at ht
    exact Or.inl ⟨t, ht, rfl, rfl, rfl, Or.inl rfl⟩
  · rw [resolveAdded_of_ne db addN m (isEmpty_false_of_not he)] at ht
    dsimp only at ht
    rcases List.mem_append.mp ht with hmk | hcr
    · obtain ⟨t0, ht0, rfl⟩ := List.mem_map.mp hmk
      have hf := markTagRow_fields db.language_code
        ((get_tags_by_names db addN).1.map Tag.name) t0
      refine Or.inl ⟨t0, ht0, hf.1.symm, hf.2.1.symm, hf.2.2.symm, ?_⟩
      rcases markTagRow_status db.language_code
        ((get_tags_by_names db addN).1.map Tag.name) t0 with h | h
      · exact Or.inl h
      · refine Or.inr ⟨?_, h.2.2.1, h.2.2.2⟩
        obtain ⟨t1, ht1, hname⟩ := List.mem_map.mp h.2.1
        have hc := (List.mem_filter.mp ht1).2
        simp only [Bool.and_eq_true] at hc
        rw [hf.1, ← hname]
        exact contains_iff_mem.mp hc.2
    · obtain ⟨nm, hnm, rfl⟩ := List.mem_map.mp hcr
      have hf := newTagRow_fields db.language_code m nm
      exact Or.inr ⟨hf.1.symm ▸ (List.mem_filter.mp hnm).1, hf.2.1,
        hf.2.2.1, hf.2.2.2⟩

lemma resolveAdded_addN_not_deleted (db : TagDB) (addN : List String)
    (m : Bool) :
    ∀ t ∈ (resolveAdded db addN m).1.tags,
      t.language_code = db.language_code → t.name ∈ addN →
      t.status ≠ TagStatus.deleted := by
  intro t ht hl hn
  by_cases he : addN.isEmpty = true
  · rw [List.isEmpty_iff.mp he] at hn
    simp at hn
  · rw [resolveAdded_of_ne db addN m (isEmpty_false_of_not he)] at ht
    dsimp only at ht
    rcases List.mem_append.mp ht with hmk | hcr
    · obtain ⟨t0, ht0, rfl⟩ := List.mem_map.mp hmk
      have hf := markTagRow_fields db.language_code
        ((get_tags_by_names db addN).1.map Tag.name) t0
      refine markTagRow_not_deleted _ _ t0 ?_ ?_
      · rw [← hf.2.1]
        exact hl
      · refine List.mem_map.mpr ⟨t0, ?_, rfl⟩
        rw [get_tags_by_names]
        refine List.mem_filter.mpr ⟨ht0, ?_⟩
        have h1 : t0.language_code = db.language_code := by
          rw [← hf.2.1]
          exact hl
        have h2 : t0.name ∈ addN := by
          rw [← hf.1]
          exact hn
        simp [h1, h2]
    · obtain ⟨nm, hnm, rfl⟩ := List.mem_map.mp hcr
      exact (newTagRow_fields db.language_code m nm).2.2.1

lemma resolveAdded_accepted_mem (db : TagDB) (addN : List String)
    (m : Bool) :
    ∀ t ∈ (resolveAdded db addN m).1.tags,
      t.language_code = db.language_code → t.name ∈ addN →
      t.status = TagStatus.accepted →
      t.name ∈ (filter_accepted_tags (resolveAdded db addN m).2).map
        Tag.name := by
  intro t ht hl hn hacc
  by_cases he : addN.isEmpty = true
  · rw [List.isEmpty_iff.mp he] at hn
    simp at hn
  · rw [resolveAdded_of_ne db addN m (isEmpty_false_of_not he)] at ht ⊢
    dsimp only at ht ⊢
    rcases List.mem_append.mp ht with hmk | hcr
    · refine List.mem_map.mpr ⟨t, List.mem_filter.mpr
        ⟨List.mem_append.mpr (Or.inl (List.mem_filter.mpr
          ⟨hmk, by simp [hl, hn]⟩)), by simp [filter_accepted_tags, hacc]⟩,
        rfl⟩
    · refine List.mem_map.mpr ⟨t, List.mem_filter.mpr
        ⟨List.mem_append.mpr (Or.inr hcr),
          by simp [filter_accepted_tags, hacc]⟩, rfl⟩

lemma resolveAdded_accepted_row (db : TagDB) (addN : List String)
    (m : Bool) :
    ∀ n ∈ (filter_accepted_tags (resolveAdded db addN m).2).map Tag.name,
      ∃ t ∈ (resolveAdded db addN m).1.tags, t.name = n ∧
        t.language_code = db.language_code ∧
        t.status = TagStatus.accepted := by
  intro n hn
  obtain ⟨t, ht, rfl⟩ := List.mem_map.mp hn
  obtain ⟨hmem, hacc⟩ := List.mem_filter.mp ht
  obtain ⟨htags, hlang⟩ := resolveAdded_added_mem_tags db addN m t hmem
  exact ⟨t, htags, rfl, hlang, by simpa [filter_accepted_tags] using hacc⟩

lemma remove_tags_by_names_nil (db : TagDB) :
    remove_tags_by_names db [] = (db, []) := by
  have h1 : db.tags.map
      (removeTagRow db.language_code db.thread_tag_names []) = db.tags :=
    map_eq_self_of (fun t _ => by simp [removeTagRow])
  have h2 : db.thread_tag_names.filter (fun n =>
      !(List.contains [] n && db.tags.any (fun t =>
        t.name == n && t.language_code == db.language_code))) =
      db.thread_tag_names :=
    List.filter_eq_self.mpr (fun a _ => by simp)
  have h3 : (db.attachedTags.filter
      (fun t => List.contains [] t.name)).map
      (fun t => { t with used_count := t.used_count - 1 }) = [] := by
    rw [List.filter_eq_nil_iff.mpr (fun a _ => by simp)]
    rfl
  rw [remove_tags_by_names]
  rw [h1, h2, h3]

/-! ### Characterization of `update_tags_core` -/

lemma update_tags_core_removed_eq (db : TagDB) (ordered : List String)
    (m : Bool) :
    (update_tags_core db ordered m).removed_tags =
      (remove_tags_by_names (updateTagsDbA db ordered)
        (removedNamesOf db ordered)).2 := by
  rw [update_tags_core]
  split
  · rfl
  · rfl

lemma update_tags_core_added_eq (db : TagDB) (ordered : List String)
    (m : Bool) :
    (update_tags_core db ordered m).added_tags =
      (resolveAdded (updateTagsDbR db ordered) (addedNamesOf db ordered)
        m).2 := by
  rw [update_tags_core]
  split
  · rfl
  · rfl

lemma update_tags_core_thread_eq (db : TagDB) (ordered : List String)
    (m : Bool) :
    (update_tags_core db ordered m).db.thread_tag_names =
      (resolveAdded (updateTagsDbR db ordered) (addedNamesOf db ordered)
        m).1.thread_tag_names := by
  rw [update_tags_core]
  split
  · rfl
  · rfl

lemma update_tags_core_tagnames (db : TagDB) (ordered : List String)
    (m : Bool) :
    (update_tags_core db ordered m).db.tagnames =
      " ".intercalate (ordered.filter (fun n =>
        ((previousTagnames db).filter
            (fun x => !(removedNamesOf db ordered).contains x) ++
          (filter_accepted_tags
            (update_tags_core db ordered m).added_tags).map
              Tag.name).contains n)) := by
  rw [update_tags_core]
  split
  · rfl
  · rfl

lemma update_tags_core_tags_eq (db : TagDB) (ordered : List String)
    (m : Bool) :
    (update_tags_core db ordered m).db.tags =
      ((resolveAdded (updateTagsDbR db ordered) (addedNamesOf db ordered)
          m).1.tags).map
        (recalcTagRow
          { (resolveAdded (updateTagsDbR db ordered)
              (addedNamesOf db ordered) m).1 with
              tagnames := (update_tags_core db ordered m).db.tagnames }
          (((update_tags_core db ordered m).removed_tags ++
            (update_tags_core db ordered m).added_tags).map Tag.name)) := by
  rw [update_tags_core]
  split
  · rename_i hemp
    rw [List.isEmpty_iff.mp hemp]
    exact (map_eq_self_of (fun t _ => by simp [recalcTagRow])).symm
  · rfl

lemma update_tags_core_scalar (db : TagDB) (ordered : List String)
    (m : Bool) :
    (update_tags_core db ordered m).db.language_code = db.language_code ∧
    (update_tags_core db ordered m).db.base_use = db.base_use ∧
    synProj (update_tags_core db ordered m).db = synProj db := by
  obtain ⟨hA1, hA2, hA3, hA4, hA5, hA6⟩ :=
    applySynonyms_state db (dedupNames ordered)
  obtain ⟨hS1, hS2, hS3, hS4⟩ := resolveAdded_fields
    (updateTagsDbR db ordered) (addedNamesOf db ordered) m
  have hl : (update_tags_core db ordered m).db.language_code =
      (resolveAdded (updateTagsDbR db ordered) (addedNamesOf db ordered)
        m).1.language_code := by
    rw [update_tags_core]
    split
    · rfl
    · rfl
  have hb : (update_tags_core db ordered m).db.base_use =
      (resolveAdded (updateTagsDbR db ordered) (addedNamesOf db ordered)
        m).1.base_use := by
    rw [update_tags_core]
    split
    · rfl
    · rfl
  have hs : (update_tags_core db ordered m).db.synonyms =
      (resolveAdded (updateTagsDbR db ordered) (addedNamesOf db ordered)
        m).1.synonyms := by
    rw [update_tags_core]
    split
    · rfl
    · rfl
  refine ⟨?_, ?_, ?_⟩
  · rw [hl, hS3]
    exact hA4
  · rw [hb, hS4]
    exact hA5
  · rw [synProj, hs, hS1]
    show synProj (updateTagsDbA db ordered) = synProj db
    exact hA6

lemma update_tags_core_removed_names (db : TagDB) (ordered : List String)
    (m : Bool) (n : String) :
    n ∈ (update_tags_core db ordered m).removed_tags.map Tag.name ↔
      n ∈ removedNamesOf db ordered := by
  obtain ⟨hA1, hA2, _, hA4, _, _⟩ := applySynonyms_state db (dedupNames ordered)
  have hA1' : (updateTagsDbA db ordered).tags = db.tags := hA1
  have hA2' : (updateTagsDbA db ordered).thread_tag_names =
      db.thread_tag_names := hA2
  have hA4' : (updateTagsDbA db ordered).language_code =
      db.language_code := hA4
  rw [update_tags_core_removed_eq]
  refine remove_removed_names_mem _ _ _ ?_
  intro x hx
  have hx' : x ∈ previousTagnames db := (List.mem_filter.mp hx).1
  obtain ⟨t, ht, hname, hlang, hacc, hatt⟩ := previousTagnames_rows db x hx'
  refine ⟨t, ?_, hname⟩
  rw [TagDB.attachedTags]
  rw [hA1']
  refine List.mem_filter.mpr ⟨ht, ?_⟩
  have h1 : t.language_code = (updateTagsDbA db ordered).language_code := by
    rw [hA4']
    exact hlang
  have h2 : t.name ∈ (updateTagsDbA db ordered).thread_tag_names := by
    rw [hA2', hname]
    exact hatt
  simp [h1, h2]

lemma update_tags_core_added_names (db : TagDB) (ordered : List String)
    (m : Bool) (n : String) :
    n ∈ (update_tags_core db ordered m).added_tags.map Tag.name ↔
      n ∈ addedNamesOf db ordered := by
  rw [update_tags_core_added_eq]
  exact resolveAdded_names_mem _ _ _ n

lemma update_tags_core_thread_mem (db : TagDB) (ordered : List String)
    (m : Bool) (x : String) :
    x ∈ (update_tags_core db ordered m).db.thread_tag_names ↔
      ((x ∈ db.thread_tag_names ∧ x ∉ removedNamesOf db ordered) ∨
        x ∈ addedNamesOf db ordered) := by
  obtain ⟨hA1, hA2, _, hA4, _, _⟩ := applySynonyms_state db (dedupNames ordered)
  have hA1' : (updateTagsDbA db ordered).tags = db.tags := hA1
  have hA2' : (updateTagsDbA db ordered).thread_tag_names =
      db.thread_tag_names := hA2
  have hA4' : (updateTagsDbA db ordered).language_code =
      db.language_code := hA4
  have hrows : ∀ n ∈ removedNamesOf db ordered,
      ∃ t ∈ (updateTagsDbA db ordered).tags, t.name = n ∧
        t.language_code = (updateTagsDbA db ordered).language_code := by
    intro n hn
    obtain ⟨t, ht, hname, hlang, _, _⟩ :=
      previousTagnames_rows db n (List.mem_filter.mp hn).1
    exact ⟨t, by rw [hA1']; exact ht, hname, by rw [hA4']; exact hlang⟩
  have hbase : (updateTagsDbR db ordered).thread_tag_names =
      db.thread_tag_names.filter
        (fun n => !(removedNamesOf db ordered).contains n) := by
    rw [updateTagsDbR, remove_thread_of_rows _ _ hrows, hA2']
  rw [update_tags_core_thread_eq, resolveAdded_thread,
    mem_foldl_insertName, hbase]
  constructor
  · rintro (hf | hadd)
    · obtain ⟨hmem, hpred⟩ := List.mem_filter.mp hf
      refine Or.inl ⟨hmem, ?_⟩
      intro hc
      rw [contains_iff_mem.mpr hc] at hpred
      simp at hpred
    · exact Or.inr ((resolveAdded_names_mem _ _ _ x).mp hadd)
  · rintro (⟨hmem, hnrem⟩ | hadd)
    · refine Or.inl (List.mem_filter.mpr ⟨hmem, ?_⟩)
      have hcf : (removedNamesOf db ordered).contains x = false := by
        cases hcx : (removedNamesOf db ordered).contains x
        · rfl
        · exact absurd (contains_iff_mem.mp hcx) hnrem
      show (!(removedNamesOf db ordered).contains x) = true
      rw [hcf]
      rfl
    · exact Or.inr ((resolveAdded_names_mem _ _ _ x).mpr hadd)

lemma update_tags_core_tags_backward (db : TagDB) (ordered : List String)
    (m : Bool) :
    ∀ t ∈ (update_tags_core db ordered m).db.tags,
      ∃ t1 ∈ (resolveAdded (updateTagsDbR db ordered)
          (addedNamesOf db ordered) m).1.tags,
        t1.name = t.name ∧ t1.language_code = t.language_code ∧
        t1.status = t.status := by
  intro t ht
  rw [update_tags_core_tags_eq] at ht
  obtain ⟨t1, ht1, rfl⟩ := List.mem_map.mp ht
  have hf := recalcTagRow_fields
    { (resolveAdded (updateTagsDbR db ordered) (addedNamesOf db ordered)
        m).1 with
        tagnames := (update_tags_core db ordered m).db.tagnames }
    (((update_tags_core db ordered m).removed_tags ++
      (update_tags_core db ordered m).added_tags).map Tag.name) t1
  exact ⟨t1, ht1, hf.1.symm, hf.2.1.symm, hf.2.2.symm⟩

lemma update_tags_core_tags_forward (db : TagDB) (ordered : List String)
    (m : Bool) :
    ∀ t1 ∈ (resolveAdded (updateTagsDbR db ordered)
        (addedNamesOf db ordered) m).1.tags,
      ∃ t ∈ (update_tags_core db ordered m).db.tags,
        t.name = t1.name ∧ t.language_code = t1.language_code ∧
        t.status = t1.status := by
  intro t1 ht1
  rw [update_tags_core_tags_eq]
  have hf := recalcTagRow_fields
    { (resolveAdded (updateTagsDbR db ordered) (addedNamesOf db ordered)
        m).1 with
        tagnames := (update_tags_core db ordered m).db.tagnames }
    (((update_tags_core db ordered m).removed_tags ++
      (update_tags_core db ordered m).added_tags).map Tag.name) t1
  exact ⟨_, List.mem_map_of_mem _ ht1, hf.1, hf.2.1, hf.2.2⟩

lemma bool_eq_of_iff {a b : Bool} (h : a = true ↔ b = true) : a = b := by
  cases a <;> cases b <;> simp_all

lemma contains_eq_false_of_not_mem {l : List String} {a : String}
    (h : a ∉ l) : l.contains a = false := by
  cases hx : l.contains a
  · rfl
  · exact absurd (contains_iff_mem.mp hx) h

lemma markTagRow_eq_self (L : String) (ns : List String) (t : Tag)
    (h : t.language_code = L → t.name ∈ ns →
      t.status ≠ TagStatus.deleted) :
    markTagRow L ns t = t := by
  rw [markTagRow]
  split
  · rename_i hc
    simp only [Bool.and_eq_true, beq_iff_eq] at hc
    exact absurd hc.2 (h hc.1.1 (contains_iff_mem.mp hc.1.2))
  · rfl

lemma updateTagsDbR_tags (db : TagDB) (ordered : List String) :
    (updateTagsDbR db ordered).tags =
      ((updateTagsDbA db ordered).tags).map
        (removeTagRow (updateTagsDbA db ordered).language_code
          (updateTagsDbA db ordered).thread_tag_names
          (removedNamesOf db ordered)) := rfl

lemma updateTagsDbR_lang (db : TagDB) (ordered : List String) :
    (updateTagsDbR db ordered).language_code =
      (updateTagsDbA db ordered).language_code := rfl

lemma updateTagsDbR_base (db : TagDB) (ordered : List String) :
    (updateTagsDbR db ordered).base_use =
      (updateTagsDbA db ordered).base_use := rfl

lemma removedNamesOf_mem (db : TagDB) (ordered : List String) (n : String) :
    n ∈ removedNamesOf db ordered ↔
      (n ∈ previousTagnames db ∧ n ∉ updatedTagnames db ordered) := by
  constructor
  · intro h
    refine ⟨(List.mem_filter.mp h).1, ?_⟩
    intro hc
    have h2 : (updatedTagnames db ordered).contains n = false := by
      simpa using (List.mem_filter.mp h).2
    rw [contains_iff_mem.mpr hc] at h2
    exact Bool.noConfusion h2
  · rintro ⟨h1, h2⟩
    refine List.mem_filter.mpr ⟨h1, ?_⟩
    show (!(updatedTagnames db ordered).contains n) = true
    rw [contains_eq_false_of_not_mem h2]
    rfl

lemma addedNamesOf_mem (db : TagDB) (ordered : List String) (n : String) :
    n ∈ addedNamesOf db ordered ↔
      (n ∈ updatedTagnames db ordered ∧ n ∉ previousTagnames db) := by
  constructor
  · intro h
    refine ⟨(List.mem_filter.mp h).1, ?_⟩
    intro hc
    have h2 : (previousTagnames db).contains n = false := by
      simpa using (List.mem_filter.mp h).2
    rw [contains_iff_mem.mpr hc] at h2
    exact Bool.noConfusion h2
  · rintro ⟨h1, h2⟩
    refine List.mem_filter.mpr ⟨h1, ?_⟩
    show (!(previousTagnames db).contains n) = true
    rw [contains_eq_false_of_not_mem h2]
    rfl

lemma update_tags_core_row_forward (db : TagDB) (ordered : List String)
    (m : Bool) :
    ∀ t0 ∈ db.tags, ∃ t ∈ (update_tags_core db ordered m).db.tags,
      t.name = t0.name ∧ t.language_code = t0.language_code ∧
      (t.status = t0.status ∨
        (t0.status = TagStatus.deleted ∧
          t.status = TagStatus.accepted)) := by
  intro t0 h0
  obtain ⟨hA1, _, _, _, _, _⟩ :=
    applySynonyms_state db (dedupNames ordered)
  have hA1' : (updateTagsDbA db ordered).tags = db.tags := hA1
  have h0A : t0 ∈ (updateTagsDbA db ordered).tags := by
    rw [hA1']
    exact h0
  have hR : removeTagRow (updateTagsDbA db ordered).language_code
      (updateTagsDbA db ordered).thread_tag_names
      (removedNamesOf db ordered) t0 ∈ (updateTagsDbR db ordered).tags := by
    rw [updateTagsDbR_tags]
    exact List.mem_map_of_mem _ h0A
  have hfR := removeTagRow_fields (updateTagsDbA db ordered).language_code
    (updateTagsDbA db ordered).thread_tag_names
    (removedNamesOf db ordered) t0
  obtain ⟨t1, ht1, hn1, hl1, _, hs1⟩ := resolveAdded_row_forward
    (updateTagsDbR db ordered) (addedNamesOf db ordered) m _ hR
  obtain ⟨t2, ht2, hn2, hl2, hs2⟩ :=
    update_tags_core_tags_forward db ordered m t1 ht1
  refine ⟨t2, ht2, ?_, ?_, ?_⟩
  · rw [hn2, hn1, hfR.1]
  · rw [hl2, hl1, hfR.2.1]
  · rcases hs1 with h | h
    · exact Or.inl (by rw [hs2, h, hfR.2.2])
    · refine Or.inr ⟨?_, by rw [hs2]; exact h.2⟩
      rw [← hfR.2.2]
      exact h.1

lemma update_tags_core_row_outside_back (db : TagDB)
    (ordered : List String) (m : Bool) :
    ∀ t ∈ (update_tags_core db ordered m).db.tags,
      t.name ∉ addedNamesOf db ordered →
      ∃ t0 ∈ db.tags, t0.name = t.name ∧
        t0.language_code = t.language_code ∧ t0.status = t.status := by
  intro t ht hout
  obtain ⟨hA1, _, _, _, _, _⟩ :=
    applySynonyms_state db (dedupNames ordered)
  have hA1' : (updateTagsDbA db ordered).tags = db.tags := hA1
  obtain ⟨t1, ht1, hn1, hl1, hs1⟩ :=
    update_tags_core_tags_backward db ordered m t ht
  rcases resolveAdded_row_backward (updateTagsDbR db ordered)
      (addedNamesOf db ordered) m t1 ht1 with
    ⟨t0R, h0R, hn0, hl0, _, hst⟩ | hnew
  · rw [updateTagsDbR_tags] at h0R
    obtain ⟨t0, h0, rfl⟩ := List.mem_map.mp h0R
    have hfR := removeTagRow_fields (updateTagsDbA db ordered).language_code
      (updateTagsDbA db ordered).thread_tag_names
      (removedNamesOf db ordered) t0
    have hstatus : t1.status = t0.status := by
      rcases hst with h | h
      · rw [h]
        exact hfR.2.2
      · exfalso
        apply hout
        rw [← hn1]
        exact h.1
    refine ⟨t0, hA1' ▸ h0, ?_, ?_, ?_⟩
    · rw [← hn1, ← hn0]
      exact hfR.1.symm
    · rw [← hl1, ← hl0]
      exact hfR.2.1.symm
    · rw [← hs1]
      exact hstatus.symm
  · exact absurd (hn1 ▸ hnew.1) hout

lemma update_tags_core_addN_not_deleted (db : TagDB)
    (ordered : List String) (m : Bool) :
    ∀ t ∈ (update_tags_core db ordered m).db.tags,
      t.language_code = db.language_code →
      t.name ∈ addedNamesOf db ordered →
      t.status ≠ TagStatus.deleted := by
  intro t ht hl hn
  obtain ⟨_, _, _, hA4, _, _⟩ :=
    applySynonyms_state db (dedupNames ordered)
  have hA4' : (updateTagsDbA db ordered).language_code =
      db.language_code := hA4
  obtain ⟨t1, ht1, hn1, hl1, hs1⟩ :=
    update_tags_core_tags_backward db ordered m t ht
  have hlang1 : t1.language_code = (updateTagsDbR db ordered).language_code := by
    rw [updateTagsDbR_lang, hA4', hl1]
    exact hl
  have hname1 : t1.name ∈ addedNamesOf db ordered := by
    rw [hn1]
    exact hn
  have hnd := resolveAdded_addN_not_deleted (updateTagsDbR db ordered)
    (addedNamesOf db ordered) m t1 ht1 hlang1 hname1
  intro hc
  apply hnd
  rw [hs1]
  exact hc

lemma update_tags_core_accepted_mem (db : TagDB) (ordered : List String)
    (m : Bool) :
    ∀ t ∈ (update_tags_core db ordered m).db.tags,
      t.language_code = db.language_code →
      t.name ∈ addedNamesOf db ordered →
      t.status = TagStatus.accepted →
      t.name ∈ (filter_accepted_tags
        (update_tags_core db ordered m).added_tags).map Tag.name := by
  intro t ht hl hn hacc
  obtain ⟨_, _, _, hA4, _, _⟩ :=
    applySynonyms_state db (dedupNames ordered)
  have hA4' : (updateTagsDbA db ordered).language_code =
      db.language_code := hA4
  obtain ⟨t1, ht1, hn1, hl1, hs1⟩ :=
    update_tags_core_tags_backward db ordered m t ht
  have h := resolveAdded_accepted_mem (updateTagsDbR db ordered)
    (addedNamesOf db ordered) m t1 ht1
    (by rw [updateTagsDbR_lang, hA4', hl1]; exact hl)
    (by rw [hn1]; exact hn)
    (by rw [hs1]; exact hacc)
  rw [update_tags_core_added_eq, ← hn1]
  exact h

lemma update_tags_core_accepted_row (db : TagDB) (ordered : List String)
    (m : Bool) :
    ∀ n ∈ (filter_accepted_tags
        (update_tags_core db ordered m).added_tags).map Tag.name,
      ∃ t ∈ (update_tags_core db ordered m).db.tags,
        t.name = n ∧ t.language_code = db.language_code ∧
        t.status = TagStatus.accepted := by
  intro n hn
  obtain ⟨_, _, _, hA4, _, _⟩ :=
    applySynonyms_state db (dedupNames ordered)
  have hA4' : (updateTagsDbA db ordered).language_code =
      db.language_code := hA4
  rw [update_tags_core_added_eq] at hn
  obtain ⟨t1, ht1, hname, hlang, hacc⟩ := resolveAdded_accepted_row
    (updateTagsDbR db ordered) (addedNamesOf db ordered) m n hn
  obtain ⟨t2, ht2, hn2, hl2, hs2⟩ :=
    update_tags_core_tags_forward db ordered m t1 ht1
  refine ⟨t2, ht2, by rw [hn2, hname], ?_, by rw [hs2, hacc]⟩
  rw [hl2, hlang, updateTagsDbR_lang]
  exact hA4'

lemma update_tags_core_addN_rows (db : TagDB) (ordered : List String)
    (m : Bool) :
    ∀ n ∈ addedNamesOf db ordered,
      ∃ t ∈ (update_tags_core db ordered m).db.tags,
        t.name = n ∧ t.language_code = db.language_code := by
  intro n hn
  obtain ⟨_, _, _, hA4, _, _⟩ :=
    applySynonyms_state db (dedupNames ordered)
  have hA4' : (updateTagsDbA db ordered).language_code =
      db.language_code := hA4
  have hmem : n ∈ (resolveAdded (updateTagsDbR db ordered)
      (addedNamesOf db ordered) m).2.map Tag.name :=
    (resolveAdded_names_mem _ _ _ n).mpr hn
  obtain ⟨t1, ht1, hname⟩ := List.mem_map.mp hmem
  obtain ⟨htags, hlang⟩ := resolveAdded_added_mem_tags
    (updateTagsDbR db ordered) (addedNamesOf db ordered) m t1 ht1
  obtain ⟨t2, ht2, hn2, hl2, _⟩ :=
    update_tags_core_tags_forward db ordered m t1 htags
  refine ⟨t2, ht2, by rw [hn2, hname], ?_⟩
  rw [hl2, hlang, updateTagsDbR_lang]
  exact hA4'

lemma update_tags_core_U_rows (db : TagDB) (ordered : List String)
    (m : Bool) :
    ∀ n ∈ updatedTagnames db ordered,
      ∃ t ∈ (update_tags_core db ordered m).db.tags,
        t.name = n ∧ t.language_code = db.language_code := by
  intro n hn
  by_cases hp : n ∈ previousTagnames db
  · obtain ⟨t0, h0, h0n, h0l, _, _⟩ := previousTagnames_rows db n hp
    obtain ⟨t, ht, hn', hl', _⟩ :=
      update_tags_core_row_forward db ordered m t0 h0
    exact ⟨t, ht, by rw [hn', h0n], by rw [hl', h0l]⟩
  · exact update_tags_core_addN_rows db ordered m n
      ((addedNamesOf_mem db ordered n).mpr ⟨hn, hp⟩)

lemma update_tags_core_counts (db : TagDB) (ordered : List String)
    (m : Bool) :
    ∀ t ∈ (update_tags_core db ordered m).db.tags,
      t.language_code = db.language_code →
      t.name ∈ ((update_tags_core db ordered m).removed_tags ++
        (update_tags_core db ordered m).added_tags).map Tag.name →
      t.used_count = (baseUse db t.name : Int) +
        (if (update_tags_core db ordered m).db.thread_tag_names.contains
            t.name then 1 else 0) := by
  intro t ht hl hn
  obtain ⟨_, _, _, hA4, hA5, _⟩ :=
    applySynonyms_state db (dedupNames ordered)
  have hA4' : (updateTagsDbA db ordered).language_code =
      db.language_code := hA4
  have hA5' : (updateTagsDbA db ordered).base_use = db.base_use := hA5
  rw [update_tags_core_tags_eq] at ht
  obtain ⟨t1, ht1, rfl⟩ := List.mem_map.mp ht
  have hf := recalcTagRow_fields
    { (resolveAdded (updateTagsDbR db ordered) (addedNamesOf db ordered)
        m).1 with
        tagnames := (update_tags_core db ordered m).db.tagnames }
    (((update_tags_core db ordered m).removed_tags ++
      (update_tags_core db ordered m).added_tags).map Tag.name) t1
  have hBl : ({ (resolveAdded (updateTagsDbR db ordered)
      (addedNamesOf db ordered) m).1 with
      tagnames := (update_tags_core db ordered m).db.tagnames } :
        TagDB).language_code = db.language_code := by
    show (resolveAdded (updateTagsDbR db ordered)
      (addedNamesOf db ordered) m).1.language_code = db.language_code
    rw [(resolveAdded_fields _ _ _).2.2.1, updateTagsDbR_lang]
    exact hA4'
  have hBb : ({ (resolveAdded (updateTagsDbR db ordered)
      (addedNamesOf db ordered) m).1 with
      tagnames := (update_tags_core db ordered m).db.tagnames } :
        TagDB).base_use = db.base_use := by
    show (resolveAdded (updateTagsDbR db ordered)
      (addedNamesOf db ordered) m).1.base_use = db.base_use
    rw [(resolveAdded_fields _ _ _).2.2.2, updateTagsDbR_base]
    exact hA5'
  have hBt : ({ (resolveAdded (updateTagsDbR db ordered)
      (addedNamesOf db ordered) m).1 with
      tagnames := (update_tags_core db ordered m).db.tagnames } :
        TagDB).thread_tag_names =
      (update_tags_core db ordered m).db.thread_tag_names := by
    show (resolveAdded (updateTagsDbR db ordered)
      (addedNamesOf db ordered) m).1.thread_tag_names = _
    exact (update_tags_core_thread_eq db ordered m).symm
  have hl1 : t1.language_code =
      ({ (resolveAdded (updateTagsDbR db ordered)
        (addedNamesOf db ordered) m).1 with
        tagnames := (update_tags_core db ordered m).db.tagnames } :
          TagDB).language_code := by
    rw [hBl, ← hf.2.1]
    exact hl
  rw [hf.1] at hn
  have hcnt := recalcTagRow_count
    { (resolveAdded (updateTagsDbR db ordered) (addedNamesOf db ordered)
        m).1 with
        tagnames := (update_tags_core db ordered m).db.tagnames }
    (((update_tags_core db ordered m).removed_tags ++
      (update_tags_core db ordered m).added_tags).map Tag.name) t1 hl1 hn
  rw [hcnt, hf.1, baseUse_congr hBb, hBt]

lemma update_tags_core_prevN_iff (db : TagDB) (ordered : List String)
    (m : Bool) (n : String) :
    n ∈ previousTagnames (update_tags_core db ordered m).db ↔
      ((n ∈ previousTagnames db ∧ n ∈ updatedTagnames db ordered) ∨
        n ∈ (filter_accepted_tags
          (update_tags_core db ordered m).added_tags).map Tag.name) := by
  obtain ⟨hSc1, _, _⟩ := update_tags_core_scalar db ordered m
  constructor
  · intro hn
    obtain ⟨t, ht, hname, hlang, hacc, hatt⟩ :=
      previousTagnames_rows (update_tags_core db ordered m).db n hn
    have hlang' : t.language_code = db.language_code := by
      rw [hlang, hSc1]
    by_cases hin : t.name ∈ addedNamesOf db ordered
    · exact Or.inr (hname ▸
        update_tags_core_accepted_mem db ordered m t ht hlang' hin hacc)
    · obtain ⟨t0, h0, h0n, h0l, h0s⟩ :=
        update_tags_core_row_outside_back db ordered m t ht hin
      rcases (update_tags_core_thread_mem db ordered m n).mp hatt with
        ⟨hmem, hnrem⟩ | haddn
      · have hprev : n ∈ previousTagnames db := by
          refine hname ▸ (h0n ▸ previousTagnames_of_row db t0 h0
            (by rw [h0l]; exact hlang') (by rw [h0s]; exact hacc) ?_)
          rw [h0n, hname]
          exact hmem
        have hU : n ∈ updatedTagnames db ordered := by
          by_contra hc
          exact hnrem ((removedNamesOf_mem db ordered n).mpr ⟨hprev, hc⟩)
        exact Or.inl ⟨hprev, hU⟩
      · exact absurd haddn (hname ▸ hin)
  · intro h
    rcases h with ⟨hprev, hU⟩ | hacc
    · obtain ⟨t0, h0, h0name, h0lang, h0acc, h0att⟩ :=
        previousTagnames_rows db n hprev
      obtain ⟨t, ht, hn', hl', hs'⟩ :=
        update_tags_core_row_forward db ordered m t0 h0
      have hacc' : t.status = TagStatus.accepted := by
        rcases hs' with h | h
        · rw [h, h0acc]
        · rw [h0acc] at h
          exact TagStatus.noConfusion h.1
      have hnrem : n ∉ removedNamesOf db ordered := by
        intro hc
        exact ((removedNamesOf_mem db ordered n).mp hc).2 hU
      have hatt2 : n ∈ (update_tags_core db ordered m).db.thread_tag_names :=
        (update_tags_core_thread_mem db ordered m n).mpr
          (Or.inl ⟨h0att, hnrem⟩)
      have hres := previousTagnames_of_row
        (update_tags_core db ordered m).db t ht
        (by rw [hl', h0lang]; exact hSc1.symm) hacc'
        (by rw [hn', h0name]; exact hatt2)
      rw [hn', h0name] at hres
      exact hres
    · obtain ⟨t, ht, hname, hlang, hst⟩ :=
        update_tags_core_accepted_row db ordered m n hacc
      have hnadd : n ∈ addedNamesOf db ordered := by
        obtain ⟨t2, ht2, hn2⟩ := List.mem_map.mp hacc
        exact (update_tags_core_added_names db ordered m n).mp
          (List.mem_map.mpr ⟨t2, List.mem_of_mem_filter ht2, hn2⟩)
      have hatt2 := (update_tags_core_thread_mem db ordered m n).mpr
        (Or.inr hnadd)
      have hres := previousTagnames_of_row
        (update_tags_core db ordered m).db t ht
        (by rw [hlang]; exact hSc1.symm) hst (by rw [hname]; exact hatt2)
      rw [hname] at hres
      exact hres

lemma update_tags_core_updated_eq (db : TagDB) (ordered : List String)
    (m : Bool) :
    updatedTagnames (update_tags_core db ordered m).db ordered =
      updatedTagnames db ordered := by
  obtain ⟨h1, _, h3⟩ := update_tags_core_scalar db ordered m
  exact updatedTagnames_congr _ db ordered h3 h1

lemma update_tags_core_removed2_nil (db : TagDB) (ordered : List String)
    (m : Bool) :
    removedNamesOf (update_tags_core db ordered m).db ordered = [] := by
  rw [removedNamesOf]
  refine List.filter_eq_nil_iff.mpr ?_
  intro n hn
  have hU : n ∈ updatedTagnames (update_tags_core db ordered m).db
      ordered := by
    rw [update_tags_core_updated_eq]
    rcases (update_tags_core_prevN_iff db ordered m n).mp hn with
      ⟨_, hU⟩ | hacc
    · exact hU
    · obtain ⟨t2, ht2, hn2⟩ := List.mem_map.mp hacc
      have hmem : n ∈ addedNamesOf db ordered :=
        (update_tags_core_added_names db ordered m n).mp
          (List.mem_map.mpr ⟨t2, List.mem_of_mem_filter ht2, hn2⟩)
      exact (List.mem_filter.mp hmem).1
  intro hc
  have hc' : (updatedTagnames (update_tags_core db ordered m).db
      ordered).contains n = false := by
    simpa using hc
  rw [contains_iff_mem.mpr hU] at hc'
  exact Bool.noConfusion hc'

lemma update_tags_core_added2_sub (db : TagDB) (ordered : List String)
    (m : Bool) :
    ∀ n ∈ addedNamesOf (update_tags_core db ordered m).db ordered,
      n ∈ addedNamesOf db ordered := by
  intro n hn
  obtain ⟨hU2, hnp2⟩ :=
    (addedNamesOf_mem (update_tags_core db ordered m).db ordered n).mp hn
  have hU : n ∈ updatedTagnames db ordered := by
    rw [← update_tags_core_updated_eq db ordered m]
    exact hU2
  refine (addedNamesOf_mem db ordered n).mpr ⟨hU, ?_⟩
  intro hc
  exact hnp2 ((update_tags_core_prevN_iff db ordered m n).mpr
    (Or.inl ⟨hc, hU⟩))

lemma update_tags_core_resolve2 (db : TagDB) (ordered : List String)
    (m : Bool) :
    (resolveAdded
        (updateTagsDbR (update_tags_core db ordered m).db ordered)
        (addedNamesOf (update_tags_core db ordered m).db ordered)
        m).1.tags = (update_tags_core db ordered m).db.tags ∧
    (resolveAdded
        (updateTagsDbR (update_tags_core db ordered m).db ordered)
        (addedNamesOf (update_tags_core db ordered m).db ordered)
        m).1.thread_tag_names =
      (update_tags_core db ordered m).db.thread_tag_names := by
  obtain ⟨hA1, hA2, _, hA4, _, _⟩ := applySynonyms_state
    (update_tags_core db ordered m).db (dedupNames ordered)
  have hA1' : (updateTagsDbA (update_tags_core db ordered m).db
      ordered).tags = (update_tags_core db ordered m).db.tags := hA1
  have hA2' : (updateTagsDbA (update_tags_core db ordered m).db
      ordered).thread_tag_names =
      (update_tags_core db ordered m).db.thread_tag_names := hA2
  have hA4' : (updateTagsDbA (update_tags_core db ordered m).db
      ordered).language_code =
      (update_tags_core db ordered m).db.language_code := hA4
  obtain ⟨hSc1, _, _⟩ := update_tags_core_scalar db ordered m
  have hR : updateTagsDbR (update_tags_core db ordered m).db ordered =
      updateTagsDbA (update_tags_core db ordered m).db ordered := by
    rw [updateTagsDbR, update_tags_core_removed2_nil,
      remove_tags_by_names_nil]
  rw [hR]
  have hYl : (updateTagsDbA (update_tags_core db ordered m).db
      ordered).language_code = db.language_code := by
    rw [hA4', hSc1]
  by_cases he : (addedNamesOf (update_tags_core db ordered m).db
      ordered).isEmpty = true
  · rw [List.isEmpty_iff.mp he, resolveAdded,
      if_pos (show ([] : List String).isEmpty = true from rfl)]
    exact ⟨hA1', hA2'⟩
  · have hne := isEmpty_false_of_not he
    have hnew : (get_tags_by_names
        (updateTagsDbA (update_tags_core db ordered m).db ordered)
        (addedNamesOf (update_tags_core db ordered m).db ordered)).2 =
        [] := by
      rw [get_tags_by_names]
      refine List.filter_eq_nil_iff.mpr ?_
      intro n hn
      obtain ⟨t, ht, hname, hlang⟩ := update_tags_core_addN_rows db
        ordered m n (update_tags_core_added2_sub db ordered m n hn)
      have hany : (updateTagsDbA (update_tags_core db ordered m).db
          ordered).tags.any (fun t =>
            t.language_code == (updateTagsDbA
              (update_tags_core db ordered m).db ordered).language_code &&
            t.name == n) = true := by
        refine List.any_eq_true.mpr ⟨t, ?_, ?_⟩
        · rw [hA1']
          exact ht
        · simp [hname, hlang, hYl]
      intro hc
      have hc' : (updateTagsDbA (update_tags_core db ordered m).db
          ordered).tags.any (fun t =>
            t.language_code == (updateTagsDbA
              (update_tags_core db ordered m).db ordered).language_code &&
            t.name == n) = false := by
        simpa using hc
      rw [hany] at hc'
      exact Bool.noConfusion hc'
    have hmark : (updateTagsDbA (update_tags_core db ordered m).db
        ordered).tags.map (markTagRow
          (updateTagsDbA (update_tags_core db ordered m).db
            ordered).language_code
          ((get_tags_by_names
            (updateTagsDbA (update_tags_core db ordered m).db ordered)
            (addedNamesOf (update_tags_core db ordered m).db
              ordered)).1.map Tag.name)) =
        (updateTagsDbA (update_tags_core db ordered m).db ordered).tags := by
      refine map_eq_self_of ?_
      intro t ht
      refine markTagRow_eq_self _ _ t ?_
      intro hl hn
      obtain ⟨t2, ht2, hn2⟩ := List.mem_map.mp hn
      have hpred := (List.mem_filter.mp ht2).2
      simp only [Bool.and_eq_true, beq_iff_eq] at hpred
      have hn2' : t.name ∈ addedNamesOf db ordered := by
        rw [← hn2]
        exact update_tags_core_added2_sub db ordered m t2.name
          (contains_iff_mem.mp hpred.2)
      refine update_tags_core_addN_not_deleted db ordered m t ?_ ?_ hn2'
      · rw [← hA1']
        exact ht
      · rw [hl, hYl]
    constructor
    · rw [resolveAdded_of_ne _ _ _ hne]
      dsimp only
      rw [hmark, hnew, List.map_nil, List.append_nil]
      exact hA1'
    · rw [resolveAdded_of_ne _ _ _ hne]
      dsimp only
      rw [hmark, hnew, List.map_nil, List.append_nil]
      refine (foldl_insertName_eq_self _ _ ?_).trans hA2'
      intro n hn
      obtain ⟨t2, ht2, hn2⟩ := List.mem_map.mp hn
      have hpred := (List.mem_filter.mp ht2).2
      simp only [Bool.and_eq_true, beq_iff_eq] at hpred
      have haddn : n ∈ addedNamesOf db ordered := by
        rw [← hn2]
        exact update_tags_core_added2_sub db ordered m t2.name
          (contains_iff_mem.mp hpred.2)
      rw [hA2']
      exact (update_tags_core_thread_mem db ordered m n).mpr
        (Or.inr haddn)

lemma update_tags_core_idem_removed (db : TagDB) (ordered : List String)
    (m : Bool) :
    (update_tags_core (update_tags_core db ordered m).db ordered
      m).removed_tags = [] := by
  rw [update_tags_core_removed_eq, update_tags_core_removed2_nil,
    remove_tags_by_names_nil]

lemma update_tags_core_idem_thread (db : TagDB) (ordered : List String)
    (m : Bool) :
    (update_tags_core (update_tags_core db ordered m).db ordered
      m).db.thread_tag_names =
      (update_tags_core db ordered m).db.thread_tag_names := by
  rw [update_tags_core_thread_eq]
  exact (update_tags_core_resolve2 db ordered m).2

lemma update_tags_core_idem_tags (db : TagDB) (ordered : List String)
    (m : Bool) :
    (update_tags_core (update_tags_core db ordered m).db ordered
      m).db.tags = (update_tags_core db ordered m).db.tags := by
  obtain ⟨hSc1, hSc2, _⟩ := update_tags_core_scalar db ordered m
  obtain ⟨_, _, _, hA4, hA5, _⟩ := applySynonyms_state
    (update_tags_core db ordered m).db (dedupNames ordered)
  have hA4' : (updateTagsDbA (update_tags_core db ordered m).db
      ordered).language_code =
      (update_tags_core db ordered m).db.language_code := hA4
  have hA5' : (updateTagsDbA (update_tags_core db ordered m).db
      ordered).base_use = (update_tags_core db ordered m).db.base_use := hA5
  rw [update_tags_core_tags_eq]
  rw [(update_tags_core_resolve2 db ordered m).1]
  refine map_eq_self_of ?_
  intro t ht
  refine recalcTagRow_eq_self _ _ t ?_
  intro hl hn
  have hBl : ({ (resolveAdded
      (updateTagsDbR (update_tags_core db ordered m).db ordered)
      (addedNamesOf (update_tags_core db ordered m).db ordered) m).1 with
      tagnames := (update_tags_core (update_tags_core db ordered m).db
        ordered m).db.tagnames } : TagDB).language_code =
      db.language_code := by
    show (resolveAdded
      (updateTagsDbR (update_tags_core db ordered m).db ordered)
      (addedNamesOf (update_tags_core db ordered m).db ordered)
        m).1.language_code = db.language_code
    rw [(resolveAdded_fields _ _ _).2.2.1, updateTagsDbR_lang, hA4', hSc1]
  have hBb : ({ (resolveAdded
      (updateTagsDbR (update_tags_core db ordered m).db ordered)
      (addedNamesOf (update_tags_core db ordered m).db ordered) m).1 with
      tagnames := (update_tags_core (update_tags_core db ordered m).db
        ordered m).db.tagnames } : TagDB).base_use = db.base_use := by
    show (resolveAdded
      (updateTagsDbR (update_tags_core db ordered m).db ordered)
      (addedNamesOf (update_tags_core db ordered m).db ordered)
        m).1.base_use = db.base_use
    rw [(resolveAdded_fields _ _ _).2.2.2, updateTagsDbR_base, hA5', hSc2]
  have hBt : ({ (resolveAdded
      (updateTagsDbR (update_tags_core db ordered m).db ordered)
      (addedNamesOf (update_tags_core db ordered m).db ordered) m).1 with
      tagnames := (update_tags_core (update_tags_core db ordered m).db
        ordered m).db.tagnames } : TagDB).thread_tag_names =
      (update_tags_core db ordered m).db.thread_tag_names := by
    show (resolveAdded
      (updateTagsDbR (update_tags_core db ordered m).db ordered)
      (addedNamesOf (update_tags_core db ordered m).db ordered)
        m).1.thread_tag_names = _
    exact (update_tags_core_resolve2 db ordered m).2
  have hnamemem : t.name ∈ addedNamesOf db ordered := by
    obtain ⟨t2, ht2, hn2⟩ := List.mem_map.mp hn
    rcases List.mem_append.mp ht2 with hrem | hadd
    · rw [update_tags_core_idem_removed db ordered m] at hrem
      exact absurd hrem (List.not_mem_nil t2)
    · exact update_tags_core_added2_sub db ordered m t.name
        ((update_tags_core_added_names ((update_tags_core db ordered m).db)
          ordered m t.name).mp (List.mem_map.mpr ⟨t2, hadd, hn2⟩))
  have hlang : t.language_code = db.language_code := by
    rw [hl]
    exact hBl
  have hN1 : t.name ∈ ((update_tags_core db ordered m).removed_tags ++
      (update_tags_core db ordered m).added_tags).map Tag.name := by
    rw [List.map_append]
    exact List.mem_append.mpr (Or.inr
      ((update_tags_core_added_names db ordered m t.name).mpr hnamemem))
  have hc := update_tags_core_counts db ordered m t ht hlang hN1
  rw [baseUse_congr hBb, hBt]
  exact hc

lemma update_tags_core_idem_tagnames (db : TagDB) (ordered : List String)
    (m : Bool) :
    (update_tags_core (update_tags_core db ordered m).db ordered
      m).db.tagnames = (update_tags_core db ordered m).db.tagnames := by
  obtain ⟨hSc1, _, _⟩ := update_tags_core_scalar db ordered m
  rw [update_tags_core_tagnames ((update_tags_core db ordered m).db)
    ordered m]
  rw [update_tags_core_tagnames db ordered m]
  have hfix : (previousTagnames (update_tags_core db ordered m).db).filter
      (fun x => !(removedNamesOf (update_tags_core db ordered m).db
        ordered).contains x) =
      previousTagnames (update_tags_core db ordered m).db := by
    rw [update_tags_core_removed2_nil]
    exact List.filter_eq_self.mpr (fun a _ => rfl)
  rw [hfix]
  have hfilters : ordered.filter (fun n =>
      (previousTagnames (update_tags_core db ordered m).db ++
        (filter_accepted_tags (update_tags_core
          (update_tags_core db ordered m).db ordered m).added_tags).map
            Tag.name).contains n) =
      ordered.filter (fun n =>
        ((previousTagnames db).filter (fun x =>
          !(removedNamesOf db ordered).contains x) ++
          (filter_accepted_tags
            (update_tags_core db ordered m).added_tags).map
              Tag.name).contains n) := by
    refine List.filter_congr ?_
    intro n _
    refine bool_eq_of_iff ?_
    rw [contains_iff_mem, contains_iff_mem]
    constructor
    · intro h
      rcases List.mem_append.mp h with hp | ha
      · rcases (update_tags_core_prevN_iff db ordered m n).mp hp with
          ⟨h1, h2⟩ | hacc
        · refine List.mem_append.mpr (Or.inl ?_)
          refine List.mem_filter.mpr ⟨h1, ?_⟩
          show (!(removedNamesOf db ordered).contains n) = true
          have hnr : n ∉ removedNamesOf db ordered := fun hc =>
            ((removedNamesOf_mem db ordered n).mp hc).2 h2
          rw [contains_eq_false_of_not_mem hnr]
          rfl
        · exact List.mem_append.mpr (Or.inr hacc)
      · obtain ⟨t, ht, hname, hlang, hst⟩ := update_tags_core_accepted_row
          ((update_tags_core db ordered m).db) ordered m n ha
        rw [update_tags_core_idem_tags db ordered m] at ht
        have haddn : n ∈ addedNamesOf db ordered := by
          obtain ⟨t2, ht2, hn2⟩ := List.mem_map.mp ha
          exact update_tags_core_added2_sub db ordered m n
            ((update_tags_core_added_names
              ((update_tags_core db ordered m).db) ordered m n).mp
              (List.mem_map.mpr ⟨t2, List.mem_of_mem_filter ht2, hn2⟩))
        have hmem := update_tags_core_accepted_mem db ordered m t ht
          (by rw [hlang]; exact hSc1) (by rw [hname]; exact haddn) hst
        rw [hname] at hmem
        exact List.mem_append.mpr (Or.inr hmem)
    · intro h
      rcases List.mem_append.mp h with hp | ha
      · obtain ⟨h1, h2b⟩ := List.mem_filter.mp hp
        have h2 : n ∈ updatedTagnames db ordered := by
          by_contra hc
          have hmem : n ∈ removedNamesOf db ordered :=
            (removedNamesOf_mem db ordered n).mpr ⟨h1, hc⟩
          have h2b' : (removedNamesOf db ordered).contains n = false := by
            simpa using h2b
          rw [contains_iff_mem.mpr hmem] at h2b'
          exact Bool.noConfusion h2b'
        exact List.mem_append.mpr (Or.inl
          ((update_tags_core_prevN_iff db ordered m n).mpr
            (Or.inl ⟨h1, h2⟩)))
      · exact List.mem_append.mpr (Or.inl
          ((update_tags_core_prevN_iff db ordered m n).mpr (Or.inr ha)))
  rw [hfilters]

/-- C5: with no group restriction, `Thread.get_post_data` returns an
answers list containing every non-deleted, approved answer of the thread
exactly once (the accepted-answer promotion and published-answers-first
passes neither drop nor duplicate answers), and nothing else. -/
theorem get_post_data_each_answer_once (th : ThreadPosts)
    (stg : AggregatorSettings) (sm : Option SortMethod) (pd : PostData)
    (hnodup : (th.posts.map Post.id).Nodup)
    (hres : get_post_data th stg sm [] = Except.ok pd) :
    (∀ p ∈ th.posts, p.post_type = PostType.answer → p.deleted = false →
      p.approved = true → pd.answers.count p = 1) ∧
    (∀ p ∈ pd.answers, p ∈ th.posts ∧ p.post_type = PostType.answer ∧
      p.deleted = false ∧ p.approved = true) := by
  simp only [get_post_data] at hres
  split at hres
  · simp at hres
  · rename_i q answers0 p2a cmap hc
    split at hres
    · simp at hres
    · rename_i answers1 hp
      injection hres with hres
      subst hres
      dsimp only
      have h0 := collectPosts_ok_answers _ _ _ _ _ _ hc
      simp only [List.nil_append] at h0
      have hperm0 : answers0.Perm (th.posts.filter isLiveAnswer) := by
        rw [h0]
        refine ((sortListBy_perm _ _).filter isLiveAnswer).trans ?_
        show ((th.posts.filter (fun p => p.approved)).filter
          isLiveAnswer).Perm (th.posts.filter isLiveAnswer)
        rw [List.filter_filter]
        have hcongr : th.posts.filter (fun a => isLiveAnswer a && a.approved)
            = th.posts.filter isLiveAnswer :=
          List.filter_congr (fun x _ => by
            cases happ : x.approved <;> simp [isLiveAnswer, happ])
        rw [hcongr]
      have hperm1 : answers1.Perm answers0 := promoteAccepted_ok_perm hp
      have permT := (foldl_moveToFront_perm
        ((List.map Post.id (sortListBy
          (postLe (sm.getD stg.default_answer_sort_method)
            stg.default_answer_sort_method)
          (th.posts.filter (fun p =>
            p.post_type == PostType.answer && !p.deleted)))).reverse)
        answers1).trans (hperm1.trans hperm0)
      constructor
      · intro p hpmem hty hdel happ
        rw [permT.count_eq p,
          List.count_filter (by simp [isLiveAnswer, hty, hdel, happ])]
        exact List.count_eq_one_of_mem (List.Nodup.of_map _ hnodup) hpmem
      · intro p hpmem
        obtain ⟨hmem, hlive⟩ := List.mem_filter.mp (permT.mem_iff.mp hpmem)
        simp only [isLiveAnswer, Bool.and_eq_true, beq_iff_eq,
          Bool.not_eq_true'] at hlive
        exact ⟨hmem, hlive.1.1, hlive.1.2, hlive.2⟩

/-- C5 witness: in the example thread both answers appear exactly once. -/
theorem get_post_data_each_answer_once_witness :
    (get_post_data thAccepted stgShowFirst (some SortMethod.latest) []).map
      (fun d => (d.answers.count postA, d.answers.count postB)) =
      Except.ok (1, 1) := by
  have hres : get_post_data thAccepted stgShowFirst (some SortMethod.latest)
      [] = Except.ok pdMain := by decide
  have h := (get_post_data_each_answer_once thAccepted stgShowFirst
    (some SortMethod.latest) pdMain (by decide) hres).1
  have hA := h postA (by decide) rfl rfl rfl
  have hB := h postB (by decide) rfl rfl rfl
  rw [hres]
  show Except.ok (pdMain.answers.count postA, pdMain.answers.count postB) =
    Except.ok (1, 1)
  rw [hA, hB]

/-- C1 counterexample: in `thAccepted` the accepted answer (id 1) exists,
is not deleted, and accepted-answer promotion is enabled, yet the answers
list returned by `get_post_data` starts with post id 2: the
published-answers-first pass displaces the accepted answer from position
0. -/
theorem accepted_first_displaced_counterexample :
    thAccepted.accepted_answer_id = some 1 ∧
    (thAccepted.posts.find? (fun p => p.id == 1)).map Post.deleted =
      some false ∧
    stgShowFirst.show_accepted_answer_first = true ∧
    (get_post_data thAccepted stgShowFirst (some SortMethod.latest) []).map
      (fun d => d.answers.head?.map Post.id) = Except.ok (some 2) := by
  decide

/-- C1 (amended): with accepted-answer promotion enabled and a non-deleted,
approved accepted answer, the promotion pass moves it to position 0, but
the subsequent published-answers-first pass reorders the non-deleted
answers by the requested sort order; the accepted answer ends at position
0 whenever it is additionally first in that order (the last entry of the
reversed published-answer-id list). -/
theorem accepted_first_amended (th : ThreadPosts)
    (stg : AggregatorSettings) (sm : Option SortMethod) (ap : Post)
    (pd : PostData)
    (hshow : stg.show_accepted_answer_first = true)
    (hacc : th.accepted_answer_id = some ap.id)
    (hmem : ap ∈ th.posts) (hty : ap.post_type = PostType.answer)
    (hdel : ap.deleted = false) (happ : ap.approved = true)
    (hres : get_post_data th stg sm [] = Except.ok pd)
    (hfirst : pd.published_answer_ids.getLast? = some ap.id) :
    pd.answers.head?.map Post.id = some ap.id := by
  simp only [get_post_data] at hres
  split at hres
  · simp at hres
  · rename_i q answers0 p2a cmap hc
    split at hres
    · simp at hres
    · rename_i answers1 hp
      injection hres with hres
      subst hres
      dsimp only at hfirst ⊢
      have h0 := collectPosts_ok_answers _ _ _ _ _ _ hc
      simp only [List.nil_append] at h0
      have hmem0 : ap ∈ answers0 := by
        rw [h0]
        refine List.mem_filter.mpr ⟨?_, by
          simp [isLiveAnswer, hty, hdel, happ]⟩
        refine (sortListBy_perm _ _).mem_iff.mpr ?_
        show ap ∈ th.posts.filter (fun p => p.approved)
        exact List.mem_filter.mpr ⟨hmem, by simp [happ]⟩
      have hmem1 : ap ∈ answers1 := (promoteAccepted_ok_perm hp).mem_iff.mpr
        hmem0
      obtain ⟨pf, hh, hid⟩ := foldl_moveToFront_head _ ap.id hfirst answers1
        ⟨ap, hmem1, rfl⟩
      rw [hh]
      simp [hid]

/-- C1 (amended) witness: with sort method `votes` and accepted answer
`postB` — the top answer by votes — position 0 holds the accepted
answer. -/
theorem accepted_first_amended_witness :
    (get_post_data thVotesAccepted stgShowFirst (some SortMethod.votes)
      []).map (fun d => d.answers.head?.map Post.id) = Except.ok (some 2) := by
  have hres : get_post_data thVotesAccepted stgShowFirst
      (some SortMethod.votes) [] = Except.ok pdMain := by decide
  have h := accepted_first_amended thVotesAccepted stgShowFirst
    (some SortMethod.votes) postB pdMain rfl rfl (by decide) rfl rfl rfl
    hres (by decide)
  rw [hres]
  show Except.ok (pdMain.answers.head?.map Post.id) = Except.ok (some 2)
  rw [h]
  decide

/-- C7: if the thread's posts include at most one question post, the
`assert(question_post is None)` of `get_post_data` never fires (the result
is never the assertion error), for any group set; if two or more approved
question posts are encountered, the operation aborts with that uncaught
assertion error instead of returning a result. -/
theorem get_post_data_question_assert (th : ThreadPosts)
    (stg : AggregatorSettings) (sm : Option SortMethod) :
    (th.posts.countP (fun p => p.post_type == PostType.question) ≤ 1 →
      ∀ groups, get_post_data th stg sm groups ≠
        Except.error PostDataError.assertionFailed) ∧
    (2 ≤ th.posts.countP
        (fun p => p.post_type == PostType.question && p.approved) →
      get_post_data th stg sm [] =
        Except.error PostDataError.assertionFailed) := by
  constructor
  · intro hc groups hcontra
    simp only [get_post_data] at hcontra
    split at hcontra
    · rename_i e heq
      injection hcontra with he
      subst he
      have hb : (sortListBy
          (postLe (sm.getD stg.default_answer_sort_method)
            stg.default_answer_sort_method)
          (visiblePosts th groups)).countP
            (fun p => p.post_type == PostType.question) +
          (if (none : Option Post).isSome then 1 else 0) ≤ 1 := by
        rw [countP_sortListBy]
        have hsub : (visiblePosts th groups).countP
            (fun p => p.post_type == PostType.question) ≤
            th.posts.countP (fun p => p.post_type == PostType.question) := by
          rw [visiblePosts]
          split
          · exact (List.filter_sublist _).countP_le _
          · exact (List.filter_sublist _).countP_le _
        show (visiblePosts th groups).countP
          (fun p => p.post_type == PostType.question) + 0 ≤ 1
        omega
      obtain ⟨out, hout⟩ :=
        collectPosts_ok_of_questions_le _ none [] [] [] hb
      rw [hout] at heq
      simp at heq
    · rename_i q answers0 p2a cmap heq
      split at hcontra
      · rename_i e hpeq
        injection hcontra with he
        exact promoteAccepted_error_ne hpeq he
      · rename_i answers1 hpeq
        simp at hcontra
  · intro hc
    simp only [get_post_data]
    have hb : 2 ≤ (sortListBy
        (postLe (sm.getD stg.default_answer_sort_method)
          stg.default_answer_sort_method)
        (visiblePosts th [])).countP
          (fun p => p.post_type == PostType.question && p.approved) +
        (if (none : Option Post).isSome then 1 else 0) := by
      rw [countP_sortListBy]
      show 2 ≤ (visiblePosts th []).countP
        (fun p => p.post_type == PostType.question && p.approved) + 0
      have h1 : (th.posts.filter (fun p => p.approved)).countP
          (fun p => p.post_type == PostType.question && p.approved) =
          th.posts.countP
            (fun p => p.post_type == PostType.question && p.approved) := by
        rw [List.countP_eq_length_filter, List.filter_filter,
          List.countP_eq_length_filter]
        congr 1
        refine List.filter_congr (fun x _ => ?_)
        cases happ : x.approved <;> simp [happ]
      show 2 ≤ (th.posts.filter (fun p => p.approved)).countP
        (fun p => p.post_type == PostType.question && p.approved) + 0
      omega
    have herr := collectPosts_error_of_two_questions _ none [] [] [] hb
    rw [herr]

/-- C7 witness: the single-question example thread never trips the
assertion, while a thread with two approved question posts aborts with
it. -/
theorem get_post_data_question_assert_witness :
    get_post_data thAccepted stgShowFirst (some SortMethod.latest) [] ≠
      Except.error PostDataError.assertionFailed ∧
    get_post_data thTwoQuestions stgShowFirst (some SortMethod.latest) [] =
      Except.error PostDataError.assertionFailed :=
  ⟨(get_post_data_question_assert thAccepted stgShowFirst
      (some SortMethod.latest)).1 (by decide) [],
   (get_post_data_question_assert thTwoQuestions stgShowFirst
      (some SortMethod.latest)).2 (by decide)⟩

/-- C2: applying `Thread.update_tags` twice in a row with the same
tag-name string is idempotent: the second application detaches no tags
(its removed list is empty) and leaves the thread's tag associations,
the denormalized tag string, and the whole tag table — in particular
every use count — unchanged.  (Under tag moderation the second call may
pass already-attached suggested tags to `self.tags.add` again, but this
attaches nothing: the association set is unchanged.) -/
theorem update_tags_idempotent (db : TagDB) (s : String) (m : Bool) :
    (update_tags (update_tags db s m).db s m).db.tags =
        (update_tags db s m).db.tags ∧
    (update_tags (update_tags db s m).db s m).db.thread_tag_names =
        (update_tags db s m).db.thread_tag_names ∧
    (update_tags (update_tags db s m).db s m).db.tagnames =
        (update_tags db s m).db.tagnames ∧
    (update_tags (update_tags db s m).db s m).removed_tags = [] := by
  by_cases hs : pyStrip s = ""
  · have h1 : update_tags db s m = ⟨db, [], [], false⟩ := by
      rw [update_tags, if_pos hs]
    rw [h1]
    have h2 : update_tags ((⟨db, [], [], false⟩ :
        UpdateTagsResult).db) s m = ⟨db, [], [], false⟩ := by
      rw [update_tags, if_pos hs]
    rw [h2]
    exact ⟨rfl, rfl, rfl, rfl⟩
  · have hcall : ∀ d : TagDB, update_tags d s m =
        update_tags_core d (pySplitSpace (pyStrip s)) m := by
      intro d
      rw [update_tags, if_neg hs]
    rw [hcall ((update_tags db s m).db), hcall db]
    exact ⟨update_tags_core_idem_tags db (pySplitSpace (pyStrip s)) m,
      update_tags_core_idem_thread db (pySplitSpace (pyStrip s)) m,
      update_tags_core_idem_tagnames db (pySplitSpace (pyStrip s)) m,
      update_tags_core_idem_removed db (pySplitSpace (pyStrip s)) m⟩

/-- C4 counterexample: retagging a thread whose attached tag `weird` is
in suggested status with the same name again reports `weird` as an added
tag (it is not among the previously *accepted* names), yet its use count
is not incremented — it stays at 1 before and after. -/
theorem update_tags_added_count_not_incremented :
    (update_tags dbSuggested "python weird" false).added_tags.map
        Tag.name = ["weird"] ∧
    (∀ t ∈ dbSuggested.tags, t.name = "weird" → t.used_count = 1) ∧
    (∀ t ∈ (update_tags dbSuggested "python weird" false).db.tags,
      t.name = "weird" → t.used_count = 1) := by
  decide

/-- C4 (amended): for a non-blank tag string, `update_tags` removes
exactly the previously-accepted names missing from the
synonym-normalized target set and adds exactly the target names that
were not previously accepted; assuming the use-count invariant holds in
the starting state, rows of removed names go from `baseUse + 1` to
`baseUse` (decremented), rows of added names end at `baseUse + 1`
(incremented from `baseUse` when the name was not attached before), and
a row exists afterwards for every target name (created if absent).  The
unqualified claim that every added tag's use count is incremented fails
for names already attached with non-accepted status. -/
theorem update_tags_diff_and_counts (db : TagDB) (s : String) (m : Bool)
    (hs : pyStrip s ≠ "")
    (hcons : ∀ t ∈ db.tags, t.language_code = db.language_code →
      t.used_count = (baseUse db t.name : Int) +
        (if db.thread_tag_names.contains t.name then 1 else 0)) :
    (∀ n, n ∈ (update_tags db s m).removed_tags.map Tag.name ↔
      (n ∈ previousTagnames db ∧
        n ∉ updatedTagnames db (pySplitSpace (pyStrip s)))) ∧
    (∀ n, n ∈ (update_tags db s m).added_tags.map Tag.name ↔
      (n ∈ updatedTagnames db (pySplitSpace (pyStrip s)) ∧
        n ∉ previousTagnames db)) ∧
    (∀ t0 ∈ db.tags, t0.language_code = db.language_code →
      t0.name ∈ previousTagnames db →
      t0.name ∉ updatedTagnames db (pySplitSpace (pyStrip s)) →
      t0.used_count = (baseUse db t0.name : Int) + 1) ∧
    (∀ t ∈ (update_tags db s m).db.tags,
      t.language_code = db.language_code →
      t.name ∈ previousTagnames db →
      t.name ∉ updatedTagnames db (pySplitSpace (pyStrip s)) →
      t.used_count = (baseUse db t.name : Int)) ∧
    (∀ t0 ∈ db.tags, t0.language_code = db.language_code →
      t0.name ∉ db.thread_tag_names →
      t0.used_count = (baseUse db t0.name : Int)) ∧
    (∀ t ∈ (update_tags db s m).db.tags,
      t.language_code = db.language_code →
      t.name ∈ updatedTagnames db (pySplitSpace (pyStrip s)) →
      t.name ∉ previousTagnames db →
      t.used_count = (baseUse db t.name : Int) + 1) ∧
    (∀ n ∈ updatedTagnames db (pySplitSpace (pyStrip s)),
      ∃ t ∈ (update_tags db s m).db.tags, t.name = n ∧
        t.language_code = db.language_code) := by
  have hcall : update_tags db s m =
      update_tags_core db (pySplitSpace (pyStrip s)) m := by
    rw [update_tags, if_neg hs]
  rw [hcall]
  refine ⟨?_, ?_, ?_, ?_, ?_, ?_, ?_⟩
  · intro n
    rw [update_tags_core_removed_names]
    exact removedNamesOf_mem db (pySplitSpace (pyStrip s)) n
  · intro n
    rw [update_tags_core_added_names]
    exact addedNamesOf_mem db (pySplitSpace (pyStrip s)) n
  · intro t0 h0 hl hprev hU
    have hatt : t0.name ∈ db.thread_tag_names := by
      obtain ⟨t1, _, _, _, _, h1att⟩ :=
        previousTagnames_rows db t0.name hprev
      exact h1att
    have hcv := hcons t0 h0 hl
    rw [contains_iff_mem.mpr hatt] at hcv
    simpa using hcv
  · intro t ht hl hprev hU
    have hrm : t.name ∈ removedNamesOf db (pySplitSpace (pyStrip s)) :=
      (removedNamesOf_mem db (pySplitSpace (pyStrip s)) t.name).mpr
        ⟨hprev, hU⟩
    have hNS : t.name ∈ ((update_tags_core db (pySplitSpace (pyStrip s))
        m).removed_tags ++ (update_tags_core db (pySplitSpace (pyStrip s))
        m).added_tags).map Tag.name := by
      rw [List.map_append]
      exact List.mem_append.mpr (Or.inl
        ((update_tags_core_removed_names db (pySplitSpace (pyStrip s)) m
          t.name).mpr hrm))
    have hc := update_tags_core_counts db (pySplitSpace (pyStrip s)) m
      t ht hl hNS
    have hnth : t.name ∉ (update_tags_core db (pySplitSpace (pyStrip s))
        m).db.thread_tag_names := by
      intro hmem
      rcases (update_tags_core_thread_mem db (pySplitSpace (pyStrip s)) m
          t.name).mp hmem with ⟨_, hnr⟩ | hadd
      · exact hnr hrm
      · exact ((addedNamesOf_mem db (pySplitSpace (pyStrip s))
          t.name).mp hadd).2 hprev
    rw [hc, contains_eq_false_of_not_mem hnth]
    simp
  · intro t0 h0 hl hnat
    have hcv := hcons t0 h0 hl
    rw [contains_eq_false_of_not_mem hnat] at hcv
    simpa using hcv
  · intro t ht hl hU hprev
    have hadd : t.name ∈ addedNamesOf db (pySplitSpace (pyStrip s)) :=
      (addedNamesOf_mem db (pySplitSpace (pyStrip s)) t.name).mpr
        ⟨hU, hprev⟩
    have hNS : t.name ∈ ((update_tags_core db (pySplitSpace (pyStrip s))
        m).removed_tags ++ (update_tags_core db (pySplitSpace (pyStrip s))
        m).added_tags).map Tag.name := by
      rw [List.map_append]
      exact List.mem_append.mpr (Or.inr
        ((update_tags_core_added_names db (pySplitSpace (pyStrip s)) m
          t.name).mpr hadd))
    have hc := update_tags_core_counts db (pySplitSpace (pyStrip s)) m
      t ht hl hNS
    have hth : t.name ∈ (update_tags_core db (pySplitSpace (pyStrip s))
        m).db.thread_tag_names :=
      (update_tags_core_thread_mem db (pySplitSpace (pyStrip s)) m
        t.name).mpr (Or.inr hadd)
    rw [hc, contains_iff_mem.mpr hth]
    simp
  · exact update_tags_core_U_rows db (pySplitSpace (pyStrip s)) m

/-- C4 witness: the spec's retag scenario `"python django"` →
`"python flask"` at a consistent state: `django` is removed and `flask`
is added, as the amended theorem instantiates. -/
theorem update_tags_diff_and_counts_witness :
    (pyStrip "python flask" ≠ "" ∧
      (∀ t ∈ dbScenario.tags,
        t.language_code = dbScenario.language_code →
        t.used_count = (baseUse dbScenario t.name : Int) +
          (if dbScenario.thread_tag_names.contains t.name then 1
            else 0))) ∧
    "django" ∈ (update_tags dbScenario "python flask"
      false).removed_tags.map Tag.name ∧
    "flask" ∈ (update_tags dbScenario "python flask"
      false).added_tags.map Tag.name :=
  ⟨⟨by decide, by decide⟩,
    ((update_tags_diff_and_counts dbScenario "python flask" false
      (by decide) (by decide)).1 "django").mpr (by decide),
    ((update_tags_diff_and_counts dbScenario "python flask" false
      (by decide) (by decide)).2.1 "flask").mpr (by decide)⟩

end Askbot
